import Mathlib

/- Verification of the LRU cache in src/LRU.js.

   The JavaScript code keeps a doubly linked list of Node objects together
   with a plain-object map from keys to nodes.  We embed it shallowly:
   object references become natural-number addresses into an explicit heap
   (an association list from addresses to node records), object-property
   maps become association lists, and JavaScript numbers become Int.
   JavaScript values that the claims depend on (null, undefined, booleans,
   numbers, strings) are modelled by the inductive type JSVal.  An operation
   that can throw a TypeError in JavaScript returns Option, with none
   modelling the thrown exception. -/

/-- JavaScript values stored in the cache. -/
inductive JSVal where
  | vnull
  | vundef
  | vbool (b : Bool)
  | vnum (n : Int)
  | vstr (s : String)
  deriving DecidableEq, Repr

/-- JavaScript truthiness on the modelled values. -/
def JSVal.truthy : JSVal → Bool
  | .vnull => false
  | .vundef => false
  | .vbool b => b
  | .vnum n => decide (n ≠ 0)
  | .vstr s => decide (s ≠ "")

/-- One node of the doubly linked list (class Node in src/LRU.js).
next points one step towards the tail, prev one step towards the head,
exactly as in the source constructor Node(key, value, next, prev). -/
structure Node where
  key : String
  value : JSVal
  next : Option Nat
  prev : Option Nat
  deriving DecidableEq, Repr

/-- Lookup in an association list (a JavaScript property read; keys of the
cache object are strings, as JavaScript coerces property names). -/
def assocGet {α β : Type} [DecidableEq α] (k : α) : List (α × β) → Option β
  | [] => none
  | p :: t => if p.1 = k then some p.2 else assocGet k t

/-- Update or insert in an association list (a JavaScript property write). -/
def assocSet {α β : Type} [DecidableEq α] (k : α) (v : β) : List (α × β) → List (α × β)
  | [] => [(k, v)]
  | p :: t => if p.1 = k then (k, v) :: t else p :: assocSet k v t

/-- Deletion from an association list (the JavaScript delete operator). -/
def assocDel {α β : Type} [DecidableEq α] (k : α) : List (α × β) → List (α × β)
  | [] => []
  | p :: t => if p.1 = k then t else p :: assocDel k t

/-- The heap of allocated list nodes, addressed by natural numbers. -/
abbrev Heap := List (Nat × Node)

/-- Write the prev field of the node at address a
(a JavaScript field assignment through a reference, such as node.next.prev = p). -/
def writePrev (h : Heap) (a : Nat) (p : Option Nat) : Heap :=
  match assocGet a h with
  | none => h
  | some nd => assocSet a { nd with prev := p } h

/-- Write the next field of the node at address a. -/
def writeNext (h : Heap) (a : Nat) (n : Option Nat) : Heap :=
  match assocGet a h with
  | none => h
  | some nd => assocSet a { nd with next := n } h

/-- The state of one LRU instance (class LRU in src/LRU.js): the fields
size, limit, head, tail and cache, plus the heap of allocated nodes and a
fresh-address counter modelling allocation. -/
structure LRU where
  size : Int
  limit : Int
  head : Option Nat
  tail : Option Nat
  cache : List (String × Nat)
  heap : Heap
  fresh : Nat
  deriving DecidableEq, Repr

/-- The constructor new LRU(limit).  The source gives limit the default 3
when no argument is passed; no validation of limit is performed. -/
def LRU.new (limit : Int) : LRU :=
  { size := 0, limit := limit, head := none, tail := none,
    cache := [], heap := [], fresh := 0 }

/-- remove(key) from src/LRU.js: detach the node the cache maps key to,
relinking its neighbours, then delete the map entry and decrement size.
Absent keys are a no-op (the source returns null).  The source reads
node.prev and node.next again after the first neighbour update; the only
field written by then is the prev field of the node at node.next, and even
when that aliases node itself it is rewritten to its current value, so the
snapshot node is still exact. -/
def LRU.remove (key : String) (s : LRU) : LRU :=
  match assocGet key s.cache with
  | none => s
  | some a =>
    match assocGet a s.heap with
    | none => s
    | some node =>
      let s1 :=
        match node.next with
        | some nx => { s with heap := writePrev s.heap nx node.prev }
        | none => { s with tail := node.prev }
      let s2 :=
        match node.prev with
        | some pv => { s1 with heap := writeNext s1.heap pv node.next }
        | none => { s1 with head := node.next }
      { s2 with cache := assocDel key s2.cache, size := s2.size - 1 }

/-- enforceLimit() from src/LRU.js: if limit === size, remove(this.tail.key).
When the tail is null (limit === size with an empty list, as for limit 0)
the source throws a TypeError reading this.tail.key; we return none. -/
def LRU.enforceLimit (s : LRU) : Option LRU :=
  if s.limit = s.size then
    match s.tail with
    | none => none
    | some a =>
      match assocGet a s.heap with
      | none => none
      | some nd => some (LRU.remove nd.key s)
  else some s

/-- The body of add(key, value) after the enforceLimit() call: allocate the
new node (at the fresh address), link it in front of the current head (also
becoming the tail if the list was empty), point cache[key] at it and
increment size. -/
def LRU.addCore (key : String) (value : JSVal) (s : LRU) : LRU :=
  let a := s.fresh
  let s1 :=
    match s.head with
    | none =>
      { s with heap := assocSet a (Node.mk key value none none) s.heap,
               head := some a, tail := some a }
    | some hd =>
      { s with heap := writePrev (assocSet a (Node.mk key value (some hd) none) s.heap) hd (some a),
               head := some a }
  { s1 with cache := assocSet key a s1.cache, size := s1.size + 1, fresh := a + 1 }

/-- add(key, value) from src/LRU.js: enforceLimit() first (which can throw,
hence Option), then the insertion body. -/
def LRU.add (key : String) (value : JSVal) (s : LRU) : Option LRU :=
  (LRU.enforceLimit s).map (LRU.addCore key value)

/-- read(key) from src/LRU.js: the guard if (this.cache[key]) tests the node
object stored in the map, which is truthy exactly when the key is present;
on a hit the value is saved, the entry is removed and re-added (promotion),
and the saved value is returned; on a miss null is returned with no change. -/
def LRU.read (key : String) (s : LRU) : Option (JSVal × LRU) :=
  match assocGet key s.cache with
  | none => some (JSVal.vnull, s)
  | some a =>
    match assocGet a s.heap with
    | none => none
    | some nd =>
      (LRU.add key nd.value (LRU.remove key s)).map (fun s2 => (nd.value, s2))

/-- The while loop of contentsArray(): follow next links collecting values.
The loop runs until the cursor is null; fuel bounds the walk (any fuel of at
least the chain length computes the same list). -/
def chainVals (h : Heap) : Option Nat → Nat → List JSVal
  | _, 0 => []
  | none, _ + 1 => []
  | some a, fuel + 1 =>
    match assocGet a h with
    | none => []
    | some nd => nd.value :: chainVals h nd.next fuel

/-- contentsArray() from src/LRU.js: valueList starts as [this.head.value],
then the while loop pushes the remaining values.  On an empty store the
source throws a TypeError reading this.head.value of null; we return none. -/
def LRU.contentsArray (s : LRU) : Option (List JSVal) :=
  match s.head with
  | none => none
  | some a =>
    match assocGet a s.heap with
    | none => none
    | some nd => some (nd.value :: chainVals s.heap nd.next s.heap.length)

/-- Serialization of one value as JSON.stringify renders it inside an array
(undefined serializes as null there). -/
def jsonOfVal : JSVal → String
  | .vnull => "null"
  | .vundef => "null"
  | .vbool b => if b then "true" else "false"
  | .vnum n => toString n
  | .vstr s => "\"" ++ s ++ "\""

/-- The cache key JSON.stringify(argsList) built by the memoization wrapper. -/
def jsonKey (args : List JSVal) : String :=
  "[" ++ String.intercalate "," (args.map jsonOfVal) ++ "]"

/-- The private store const memo = new LRU(3) created by memoizedLRU. -/
def memoInit : LRU := LRU.new 3

/-- One call of the function returned by memoizedLRU(otherFunc), with the
captured store passed explicitly: itemExists = memo.read(key); if
(!itemExists) compute, memo.add and return, else return itemExists.  The
Bool in the result records whether otherFunc was invoked by this call. -/
def memoCall (f : List JSVal → JSVal) (args : List JSVal) (s : LRU) :
    Option (JSVal × LRU × Bool) :=
  match LRU.read (jsonKey args) s with
  | none => none
  | some (itemExists, s1) =>
    if itemExists.truthy then some (itemExists, s1, false)
    else
      match LRU.add (jsonKey args) (f args) s1 with
      | none => none
      | some s2 => some (f args, s2, true)

/-- A sequence of put operations, applied left to right. -/
def putAll (kvs : List (String × JSVal)) (s : LRU) : Option LRU :=
  match kvs with
  | [] => some s
  | (k, v) :: t =>
    match LRU.add k v s with
    | none => none
    | some s' => putAll t s'

/-- Walk of the chain from a cursor collecting keys, used to state the
spec's chain/index consistency invariant. -/
def chainKeysFrom (h : Heap) : Option Nat → Nat → List String
  | _, 0 => []
  | none, _ + 1 => []
  | some a, fuel + 1 =>
    match assocGet a h with
    | none => []
    | some nd => nd.key :: chainKeysFrom h nd.next fuel

/-- The keys of the entries reachable by walking from head to tail. -/
def chainKeys (s : LRU) : List String :=
  chainKeysFrom s.heap s.head (s.heap.length + 1)

/-- Addresses of an abstract chain listing (address, key, value), head first. -/
def modelAddrs (m : List (Nat × String × JSVal)) : List Nat := m.map (fun e => e.1)

/-- Keys of an abstract chain listing, head first. -/
def modelKeys (m : List (Nat × String × JSVal)) : List String := m.map (fun e => e.2.1)

/-- Values of an abstract chain listing, head first. -/
def modelVals (m : List (Nat × String × JSVal)) : List JSVal := m.map (fun e => e.2.2)

/-- Seg h p c l p' c': starting from cursor c, whose node must point back to
p, the next links visit exactly the addresses in l; p' is the address of the
last visited node (or p when l is empty) and c' is the cursor after the
segment.  A full well-formed chain is Seg s.heap none s.head l s.tail none. -/
inductive Seg (h : Heap) : Option Nat → Option Nat → List Nat → Option Nat → Option Nat → Prop where
  | nil (p c : Option Nat) : Seg h p c [] p c
  | cons {p p' c' : Option Nat} {l : List Nat} (a : Nat) (nd : Node) :
      assocGet a h = some nd → nd.prev = p → Seg h (some a) nd.next l p' c' →
      Seg h p (some a) (a :: l) p' c'

/-- Model s m: the concrete store s realises the abstract chain m (a
head-to-tail list of (address, key, value) triples) with a consistent index:
the doubly linked chain visits exactly the addresses of m, every entry's
node carries its key and value, the cache maps exactly the chain keys to
their addresses, no address or key repeats, size counts the entries, and
all allocated addresses are below the fresh counter. -/
structure Model (s : LRU) (m : List (Nat × String × JSVal)) : Prop where
  chain : Seg s.heap none s.head (modelAddrs m) s.tail none
  nodes : ∀ e ∈ m, ∃ nd, assocGet e.1 s.heap = some nd ∧ nd.key = e.2.1 ∧ nd.value = e.2.2
  cacheOf : ∀ e ∈ m, assocGet e.2.1 s.cache = some e.1
  cacheOnly : ∀ k a, assocGet k s.cache = some a → ∃ v, (a, k, v) ∈ m
  addrsNodup : (modelAddrs m).Nodup
  keysNodup : (modelKeys m).Nodup
  sizeEq : s.size = m.length
  cacheKeysNodup : (s.cache.map Prod.fst).Nodup
  heapAddrsNodup : (s.heap.map Prod.fst).Nodup
  freshBound : ∀ a ∈ s.heap.map Prod.fst, a < s.fresh

/-- States reachable from a freshly constructed store of positive capacity
by put of a key not currently present, by get, and by remove. -/
inductive Reach : LRU → Prop where
  | init (c : Int) : 1 ≤ c → Reach (LRU.new c)
  | put {s s' : LRU} (k : String) (v : JSVal) : Reach s → assocGet k s.cache = none →
      LRU.add k v s = some s' → Reach s'
  | get {s s' : LRU} (k : String) (v : JSVal) : Reach s → LRU.read k s = some (v, s') → Reach s'
  | del {s : LRU} (k : String) : Reach s → Reach (LRU.remove k s)

/-- A concrete store holding the single entry k with value v, capacity c. -/
def singleStore (k : String) (v : JSVal) (c : Int) : LRU :=
  { size := 1, limit := c, head := some 0, tail := some 0,
    cache := [(k, 0)],
    heap := [(0, Node.mk k v none none)], fresh := 1 }
/- Association list lemmas. -/

theorem assocGet_set_self {α β : Type} [DecidableEq α] (k : α) (v : β) :
    ∀ l : List (α × β), assocGet k (assocSet k v l) = some v := by
  intro l
  induction l with
  | nil => simp [assocGet, assocSet]
  | cons p t ih =>
    by_cases hp : p.1 = k
    · simp [assocGet, assocSet, hp]
    · simp [assocGet, assocSet, hp, ih]

theorem assocGet_set_ne {α β : Type} [DecidableEq α] {k k' : α} (v : β) {l : List (α × β)}
    (h : k' ≠ k) : assocGet k' (assocSet k v l) = assocGet k' l := by
  have hkk : ¬ k = k' := fun hh => h hh.symm
  induction l with
  | nil => simp [assocGet, assocSet, hkk]
  | cons p t ih =>
    by_cases hp : p.1 = k
    · have hp' : ¬ p.1 = k' := by rw [hp]; exact hkk
      simp [assocGet, assocSet, hp, hkk, hp']
    · by_cases hp' : p.1 = k'
      · simp [assocGet, assocSet, hp, hp', h]
      · simp [assocGet, assocSet, hp, hp', ih]

theorem assocGet_eq_none {α β : Type} [DecidableEq α] {k : α} {l : List (α × β)}
    (h : k ∉ l.map Prod.fst) : assocGet k l = none := by
  induction l with
  | nil => simp [assocGet]
  | cons p t ih =>
    simp only [List.map_cons, List.mem_cons] at h
    push_neg at h
    have hp : ¬ p.1 = k := fun hh => h.1 hh.symm
    simp [assocGet, hp, ih h.2]

theorem assocGet_del_self {α β : Type} [DecidableEq α] {k : α} {l : List (α × β)}
    (h : (l.map Prod.fst).Nodup) : assocGet k (assocDel k l) = none := by
  induction l with
  | nil => simp [assocGet, assocDel]
  | cons p t ih =>
    simp only [List.map_cons, List.nodup_cons] at h
    by_cases hp : p.1 = k
    · rw [assocDel, if_pos hp]
      exact assocGet_eq_none (hp ▸ h.1)
    · simp [assocDel, hp, assocGet, ih h.2]

theorem assocGet_del_ne {α β : Type} [DecidableEq α] {k k' : α} {l : List (α × β)}
    (h : k' ≠ k) : assocGet k' (assocDel k l) = assocGet k' l := by
  have hkk : ¬ k = k' := fun hh => h hh.symm
  induction l with
  | nil => simp [assocGet, assocDel]
  | cons p t ih =>
    by_cases hp : p.1 = k
    · have hp' : ¬ p.1 = k' := by rw [hp]; exact hkk
      simp [assocDel, hp, assocGet, hp', hkk]
    · by_cases hp' : p.1 = k'
      · simp [assocDel, hp, assocGet, hp', h]
      · simp [assocDel, hp, assocGet, hp', ih]

theorem assocGet_mem {α β : Type} [DecidableEq α] {k : α} {v : β} :
    ∀ {l : List (α × β)}, assocGet k l = some v → (k, v) ∈ l := by
  intro l
  induction l with
  | nil => intro h; simp [assocGet] at h
  | cons p t ih =>
    intro h
    simp only [assocGet] at h
    split at h
    · rename_i hp
      injection h with h
      exact List.mem_cons.mpr (Or.inl (by rw [← hp, ← h]))
    · exact List.mem_cons_of_mem _ (ih h)

theorem assocGet_of_mem_nodup {α β : Type} [DecidableEq α] {k : α} {v : β} {l : List (α × β)}
    (hn : (l.map Prod.fst).Nodup) (hm : (k, v) ∈ l) : assocGet k l = some v := by
  induction l with
  | nil => simp at hm
  | cons p t ih =>
    simp only [List.map_cons, List.nodup_cons] at hn
    rcases List.mem_cons.mp hm with h1 | h2
    · rw [← h1]
      simp [assocGet]
    · have hp : ¬ p.1 = k := by
        intro hh
        have : k ∈ t.map Prod.fst := List.mem_map_of_mem Prod.fst h2
        exact hn.1 (hh ▸ this)
      simp [assocGet, hp, ih hn.2 h2]

theorem assocSet_fst_of_get {α β : Type} [DecidableEq α] {k : α} {w : β} (v : β) :
    ∀ {l : List (α × β)}, assocGet k l = some w →
      (assocSet k v l).map Prod.fst = l.map Prod.fst := by
  intro l
  induction l with
  | nil => intro h; simp [assocGet] at h
  | cons p t ih =>
    intro h
    by_cases hp : p.1 = k
    · simp [assocSet, hp]
    · simp only [assocGet, hp, if_neg, ite_false] at h
      simp [assocSet, hp, ih h]

theorem assocSet_fst_mem {α β : Type} [DecidableEq α] {k : α} {v : β} :
    ∀ {l : List (α × β)} {x : α}, x ∈ (assocSet k v l).map Prod.fst →
      x = k ∨ x ∈ l.map Prod.fst := by
  intro l
  induction l with
  | nil => simp [assocSet]
  | cons p t ih =>
    intro x hx
    by_cases hp : p.1 = k
    · simp only [assocSet, hp, if_pos, List.map_cons, List.mem_cons] at hx
      rcases hx with h | h
      · exact Or.inl h
      · exact Or.inr (by simp [h])
    · simp only [assocSet, hp, ite_false, List.map_cons, List.mem_cons] at hx
      rcases hx with h | h
      · exact Or.inr (by simp [h])
      · rcases ih h with h' | h'
        · exact Or.inl h'
        · exact Or.inr (by simp [h'])

theorem assocSet_fst_nodup {α β : Type} [DecidableEq α] {k : α} {v : β} :
    ∀ {l : List (α × β)}, (l.map Prod.fst).Nodup → ((assocSet k v l).map Prod.fst).Nodup := by
  intro l
  induction l with
  | nil => simp [assocSet]
  | cons p t ih =>
    intro hn
    simp only [List.map_cons, List.nodup_cons] at hn
    by_cases hp : p.1 = k
    · simp only [assocSet, hp, if_pos, List.map_cons, List.nodup_cons]
      exact ⟨hp ▸ hn.1, hn.2⟩
    · simp only [assocSet, hp, ite_false, List.map_cons, List.nodup_cons]
      refine ⟨fun hmem => ?_, ih hn.2⟩
      rcases assocSet_fst_mem hmem with h | h
      · exact hp h
      · exact hn.1 h

theorem assocDel_sublist {α β : Type} [DecidableEq α] (k : α) :
    ∀ l : List (α × β), (assocDel k l).Sublist l := by
  intro l
  induction l with
  | nil => simp [assocDel]
  | cons p t ih =>
    by_cases hp : p.1 = k
    · rw [assocDel, if_pos hp]
      exact List.sublist_cons_self p t
    · rw [assocDel, if_neg hp]
      exact List.Sublist.cons₂ p ih

theorem assocDel_fst_nodup {α β : Type} [DecidableEq α] {k : α} {l : List (α × β)}
    (hn : (l.map Prod.fst).Nodup) : ((assocDel k l).map Prod.fst).Nodup :=
  List.Nodup.sublist (List.Sublist.map Prod.fst (assocDel_sublist k l)) hn

theorem writePrev_get_self {h : Heap} {a : Nat} {nd : Node} (p : Option Nat)
    (hl : assocGet a h = some nd) :
    assocGet a (writePrev h a p) = some { nd with prev := p } := by
  simp [writePrev, hl, assocGet_set_self]

theorem writePrev_get_ne {h : Heap} {a b : Nat} (p : Option Nat) (hne : b ≠ a) :
    assocGet b (writePrev h a p) = assocGet b h := by
  unfold writePrev
  cases hl : assocGet a h with
  | none => rfl
  | some nd => simp [assocGet_set_ne _ hne]

theorem writeNext_get_self {h : Heap} {a : Nat} {nd : Node} (n : Option Nat)
    (hl : assocGet a h = some nd) :
    assocGet a (writeNext h a n) = some { nd with next := n } := by
  simp [writeNext, hl, assocGet_set_self]

theorem writeNext_get_ne {h : Heap} {a b : Nat} (n : Option Nat) (hne : b ≠ a) :
    assocGet b (writeNext h a n) = assocGet b h := by
  unfold writeNext
  cases hl : assocGet a h with
  | none => rfl
  | some nd => simp [assocGet_set_ne _ hne]

theorem writePrev_fst (h : Heap) (a : Nat) (p : Option Nat) :
    (writePrev h a p).map Prod.fst = h.map Prod.fst := by
  unfold writePrev
  cases hl : assocGet a h with
  | none => rfl
  | some nd => exact assocSet_fst_of_get _ hl

theorem writeNext_fst (h : Heap) (a : Nat) (n : Option Nat) :
    (writeNext h a n).map Prod.fst = h.map Prod.fst := by
  unfold writeNext
  cases hl : assocGet a h with
  | none => rfl
  | some nd => exact assocSet_fst_of_get _ hl

/- Chain segment lemmas. -/

theorem seg_frame {h h' : Heap} {p c p' c' : Option Nat} {l : List Nat}
    (hs : Seg h p c l p' c') (hag : ∀ a ∈ l, assocGet a h' = assocGet a h) :
    Seg h' p c l p' c' := by
  induction hs with
  | nil p c => exact Seg.nil p c
  | cons a nd hl hp _ ih =>
    exact Seg.cons a nd ((hag a (by simp)).trans hl) hp
      (ih (fun b hb => hag b (by simp [hb])))

theorem seg_append {h : Heap} {p c pm cm p' c' : Option Nat} {l1 l2 : List Nat}
    (h1 : Seg h p c l1 pm cm) : Seg h pm cm l2 p' c' → Seg h p c (l1 ++ l2) p' c' := by
  induction h1 with
  | nil p c => intro h2; simpa using h2
  | cons a nd hl hp _ ih => intro h2; exact Seg.cons a nd hl hp (ih h2)

theorem seg_split {h : Heap} :
    ∀ {l1 l2 : List Nat} {p c p' c' : Option Nat}, Seg h p c (l1 ++ l2) p' c' →
      ∃ pm cm, Seg h p c l1 pm cm ∧ Seg h pm cm l2 p' c' := by
  intro l1
  induction l1 with
  | nil => intro l2 p c p' c' hs; exact ⟨p, c, Seg.nil p c, hs⟩
  | cons a l1' ih =>
    intro l2 p c p' c' hs
    cases hs with
    | cons _ nd hl hp hrest =>
      obtain ⟨pm, cm, hA, hB⟩ := ih hrest
      exact ⟨pm, cm, Seg.cons a nd hl hp hA, hB⟩

theorem seg_nil_inv {h : Heap} {p c p' c' : Option Nat} (hs : Seg h p c [] p' c') :
    p' = p ∧ c' = c := by
  cases hs
  exact ⟨rfl, rfl⟩

theorem seg_cons_inv {h : Heap} {p c p' c' : Option Nat} {a : Nat} {l : List Nat}
    (hs : Seg h p c (a :: l) p' c') :
    c = some a ∧ ∃ nd, assocGet a h = some nd ∧ nd.prev = p ∧ Seg h (some a) nd.next l p' c' := by
  cases hs with
  | cons _ nd hl hp hrest => exact ⟨rfl, nd, hl, hp, hrest⟩

theorem seg_lookup {h : Heap} {p c p' c' : Option Nat} {l : List Nat}
    (hs : Seg h p c l p' c') : ∀ a ∈ l, ∃ nd, assocGet a h = some nd := by
  induction hs with
  | nil => simp
  | cons a nd hl _ _ ih =>
    intro b hb
    rcases List.mem_cons.mp hb with h1 | h2
    · exact ⟨nd, h1 ▸ hl⟩
    · exact ih b h2

/- Walk lemmas: the fueled traversals compute the abstract chain. -/

theorem chainVals_spec {h : Heap} :
    ∀ (m : List (Nat × String × JSVal)) {p c p' : Option Nat} (fuel : Nat),
      Seg h p c (modelAddrs m) p' none →
      (∀ e ∈ m, ∃ nd, assocGet e.1 h = some nd ∧ nd.key = e.2.1 ∧ nd.value = e.2.2) →
      m.length ≤ fuel →
      chainVals h c fuel = modelVals m := by
  intro m
  induction m with
  | nil =>
    intro p c p' fuel hs _ _
    have hc : c = none := (seg_nil_inv hs).2.symm
    subst hc
    cases fuel <;> simp [chainVals, modelVals]
  | cons e m' ih =>
    intro p c p' fuel hs hnodes hfuel
    obtain ⟨hc, nd, hl, _, hrest⟩ := seg_cons_inv hs
    obtain ⟨nd', hl', _, hv⟩ := hnodes e (by simp)
    have hnd : nd' = nd := Option.some.inj (hl'.symm.trans hl)
    subst hc
    cases fuel with
    | zero => simp at hfuel
    | succ f =>
      have hrec := ih f hrest (fun e' he' => hnodes e' (by simp [he'])) (by simpa using hfuel)
      simp only [chainVals, hl, modelVals, List.map_cons]
      rw [hrec]
      simp [modelVals, ← hv, hnd]

theorem chainKeysFrom_spec {h : Heap} :
    ∀ (m : List (Nat × String × JSVal)) {p c p' : Option Nat} (fuel : Nat),
      Seg h p c (modelAddrs m) p' none →
      (∀ e ∈ m, ∃ nd, assocGet e.1 h = some nd ∧ nd.key = e.2.1 ∧ nd.value = e.2.2) →
      m.length ≤ fuel →
      chainKeysFrom h c fuel = modelKeys m := by
  intro m
  induction m with
  | nil =>
    intro p c p' fuel hs _ _
    have hc : c = none := (seg_nil_inv hs).2.symm
    subst hc
    cases fuel <;> simp [chainKeysFrom, modelKeys]
  | cons e m' ih =>
    intro p c p' fuel hs hnodes hfuel
    obtain ⟨hc, nd, hl, _, hrest⟩ := seg_cons_inv hs
    obtain ⟨nd', hl', hk, _⟩ := hnodes e (by simp)
    have hnd : nd' = nd := Option.some.inj (hl'.symm.trans hl)
    subst hc
    cases fuel with
    | zero => simp at hfuel
    | succ f =>
      have hrec := ih f hrest (fun e' he' => hnodes e' (by simp [he'])) (by simpa using hfuel)
      simp only [chainKeysFrom, hl, modelKeys, List.map_cons]
      rw [hrec]
      simp [modelKeys, ← hk, hnd]

theorem model_length_le {s : LRU} {m : List (Nat × String × JSVal)} (hM : Model s m) :
    m.length ≤ s.heap.length := by
  have hsub : modelAddrs m ⊆ s.heap.map Prod.fst := by
    intro a ha
    obtain ⟨e, he, hea⟩ := List.mem_map.mp ha
    obtain ⟨nd, hl, _, _⟩ := hM.nodes e he
    exact hea ▸ List.mem_map_of_mem Prod.fst (assocGet_mem hl)
  have hlen := (hM.addrsNodup.subperm hsub).length_le
  simpa [modelAddrs] using hlen

theorem contentsArray_model {s : LRU} {m : List (Nat × String × JSVal)}
    (hM : Model s m) (hne : m ≠ []) : LRU.contentsArray s = some (modelVals m) := by
  obtain ⟨e, m', rfl⟩ := List.exists_cons_of_ne_nil hne
  have hs := hM.chain
  obtain ⟨hc, nd, hl, _, hrest⟩ := seg_cons_inv hs
  obtain ⟨nd', hl', _, hv⟩ := hM.nodes e (by simp)
  have hnd : nd' = nd := Option.some.inj (hl'.symm.trans hl)
  have hfuel : m'.length ≤ s.heap.length := by
    have := model_length_le hM
    simp only [List.length_cons] at this
    omega
  have hrec := chainVals_spec m' s.heap.length hrest
    (fun e' he' => hM.nodes e' (by simp [he'])) hfuel
  simp only [LRU.contentsArray, hc, hl]
  rw [hrec]
  simp [modelVals, ← hv, hnd]

/- Removal: shared reassembly of the Model record. -/

theorem keys_ne_of_nodup {m1 m2 : List (Nat × String × JSVal)} {a : Nat} {k : String} {v : JSVal}
    (hK : (modelKeys (m1 ++ (a, k, v) :: m2)).Nodup) :
    ∀ e ∈ m1 ++ m2, e.2.1 ≠ k := by
  have h0 : (modelKeys m1 ++ k :: modelKeys m2).Nodup := by simpa [modelKeys] using hK
  obtain ⟨h1, h2, h3⟩ := List.nodup_append.mp h0
  have hk2 : k ∉ modelKeys m2 := (List.nodup_cons.mp h2).1
  intro e he hek
  rcases List.mem_append.mp he with hm | hm
  · have : e.2.1 ∈ modelKeys m1 := List.mem_map_of_mem _ hm
    exact h3 this (hek ▸ List.mem_cons_self k (modelKeys m2))
  · have : e.2.1 ∈ modelKeys m2 := List.mem_map_of_mem _ hm
    exact hk2 (hek ▸ this)

theorem model_of_parts {s : LRU} {m1 m2 : List (Nat × String × JSVal)} {a : Nat} {k : String}
    {v : JSVal} (hM : Model s (m1 ++ (a, k, v) :: m2))
    {H : Heap} {hd tl : Option Nat}
    (hchain : Seg H none hd (modelAddrs (m1 ++ m2)) tl none)
    (hnodes : ∀ e ∈ m1 ++ m2, ∃ nd, assocGet e.1 H = some nd ∧ nd.key = e.2.1 ∧ nd.value = e.2.2)
    (hfst : H.map Prod.fst = s.heap.map Prod.fst) :
    Model { s with heap := H, head := hd, tail := tl,
                   cache := assocDel k s.cache, size := s.size - 1 } (m1 ++ m2) := by
  obtain ⟨hC, hN, hCo, hCoo, hA, hK, hS, hCn, hHn, hF⟩ := hM
  have hsub : (m1 ++ m2).Sublist (m1 ++ (a, k, v) :: m2) :=
    List.Sublist.append_left (List.sublist_cons_self (a, k, v) m2) m1
  have hne : ∀ e ∈ m1 ++ m2, e.2.1 ≠ k := keys_ne_of_nodup hK
  refine ⟨hchain, hnodes, ?_, ?_, ?_, ?_, ?_, ?_, ?_, ?_⟩
  · intro e he
    have : assocGet e.2.1 s.cache = some e.1 := hCo e (hsub.mem he)
    simpa [assocGet_del_ne (hne e he)] using this
  · intro k' a' hget
    simp only at hget
    by_cases hkk : k' = k
    · subst hkk
      rw [assocGet_del_self hCn] at hget
      exact absurd hget (by simp)
    · rw [assocGet_del_ne hkk] at hget
      obtain ⟨v', hv'⟩ := hCoo k' a' hget
      refine ⟨v', ?_⟩
      rcases List.mem_append.mp hv' with hm | hm
      · exact List.mem_append.mpr (Or.inl hm)
      · rcases List.mem_cons.mp hm with he | he
        · exact absurd (congrArg (fun e => e.2.1) he) (by simpa using hkk)
        · exact List.mem_append.mpr (Or.inr he)
  · exact List.Nodup.sublist (List.Sublist.map _ hsub) hA
  · exact List.Nodup.sublist (List.Sublist.map _ hsub) hK
  · simp only []
    rw [hS]
    simp only [List.length_append, List.length_cons]
    push_cast
    ring
  · exact assocDel_fst_nodup hCn
  · simpa [hfst] using hHn
  · intro x hx
    simp only [] at hx
    rw [hfst] at hx
    exact hF x hx


theorem mem_modelAddrs {m : List (Nat × String × JSVal)} {e : Nat × String × JSVal}
    (he : e ∈ m) : e.1 ∈ modelAddrs m :=
  List.mem_map_of_mem _ he

theorem remove_model {s : LRU} {m1 m2 : List (Nat × String × JSVal)} {a : Nat} {k : String}
    {v : JSVal} (hM : Model s (m1 ++ (a, k, v) :: m2)) :
    Model (LRU.remove k s) (m1 ++ m2) ∧ (LRU.remove k s).limit = s.limit ∧
      (LRU.remove k s).fresh = s.fresh ∧ (LRU.remove k s).size = s.size - 1 := by
  have hmemE : ((a, k, v) : Nat × String × JSVal) ∈ m1 ++ (a, k, v) :: m2 := by simp
  have hcache : assocGet k s.cache = some a := hM.cacheOf _ hmemE
  obtain ⟨nd, hnode, hndk, hndv⟩ := hM.nodes _ hmemE
  have hC0 : Seg s.heap none s.head (modelAddrs m1 ++ a :: modelAddrs m2) s.tail none := by
    simpa only [modelAddrs, List.map_append, List.map_cons] using hM.chain
  obtain ⟨pm, cm, hC1, hC2⟩ := seg_split hC0
  obtain ⟨hcm, nd2, hnode2, hndprev, hC2rest⟩ := seg_cons_inv hC2
  have hnd2 : nd = nd2 := Option.some.inj (hnode.symm.trans hnode2)
  subst hnd2
  have hA0 : (modelAddrs m1 ++ a :: modelAddrs m2).Nodup := by
    simpa only [modelAddrs, List.map_append, List.map_cons] using hM.addrsNodup
  obtain ⟨hA1, hA2c, hDisj⟩ := List.nodup_append.mp hA0
  have haA2 : a ∉ modelAddrs m2 := (List.nodup_cons.mp hA2c).1
  have hA2 : (modelAddrs m2).Nodup := (List.nodup_cons.mp hA2c).2
  rcases m2 with _ | ⟨eb, m2c⟩
  · rcases List.eq_nil_or_concat m1 with hm1 | ⟨m1c, ep, hm1⟩
    · subst hm1
      obtain ⟨hpm, _⟩ := seg_nil_inv hC1
      obtain ⟨_, hnext0⟩ := seg_nil_inv hC2rest
      have hnext : nd.next = none := hnext0.symm
      have hprev : nd.prev = none := hndprev.trans hpm
      have hchain : Seg s.heap none none
          (modelAddrs (([] : List (Nat × String × JSVal)) ++ [])) none none := by
        simpa only [modelAddrs, List.map_nil, List.append_nil] using
          (Seg.nil none none : Seg s.heap none none [] none none)
      have hnodes : ∀ e ∈ ([] : List (Nat × String × JSVal)) ++ [],
          ∃ nd', assocGet e.1 s.heap = some nd' ∧ nd'.key = e.2.1 ∧ nd'.value = e.2.2 := by
        simp
      simp only [LRU.remove, hcache, hnode, hnext, hprev]
      refine ⟨model_of_parts hM hchain hnodes rfl, ?_, ?_, ?_⟩ <;> trivial
    · rw [List.concat_eq_append] at hm1
      subst hm1
      -- the removed entry is the tail; its predecessor is ep
      have hC1' : Seg s.heap none s.head (modelAddrs m1c ++ [ep.1]) pm (some a) := by
        rw [← hcm]
        simpa only [modelAddrs, List.map_append, List.map_cons, List.map_nil] using hC1
      obtain ⟨pm1, cm1, hD1, hD2⟩ := seg_split hC1'
      obtain ⟨hcm1, ndp, hnodep, hndpprev, hD2rest⟩ := seg_cons_inv hD2
      obtain ⟨hpm2, hpnext0⟩ := seg_nil_inv hD2rest
      obtain ⟨htail, hnext0⟩ := seg_nil_inv hC2rest
      have hnext : nd.next = none := hnext0.symm
      have hprev : nd.prev = some ep.1 := hndprev.trans hpm2
      have hA1' : (modelAddrs m1c ++ [ep.1]).Nodup := by
        simpa only [modelAddrs, List.map_append, List.map_cons, List.map_nil] using hA1
      have hepm1c : ep.1 ∉ modelAddrs m1c := by
        obtain ⟨_, _, hd3⟩ := List.nodup_append.mp hA1'
        intro hmem
        exact hd3 hmem (List.mem_singleton.mpr rfl)
      have hframe1 : ∀ x ∈ modelAddrs m1c,
          assocGet x (writeNext s.heap ep.1 none) = assocGet x s.heap := by
        intro x hx
        exact writeNext_get_ne none (fun hxe => hepm1c (by rw [← hxe]; exact hx))
      have hchain : Seg (writeNext s.heap ep.1 none) none s.head
          (modelAddrs ((m1c ++ [ep]) ++ ([] : List (Nat × String × JSVal)))) (some ep.1) none := by
        have hS1 : Seg (writeNext s.heap ep.1 none) none s.head (modelAddrs m1c) pm1 cm1 :=
          seg_frame hD1 hframe1
        have hS2 : Seg (writeNext s.heap ep.1 none) pm1 (some ep.1) [ep.1] (some ep.1) none :=
          Seg.cons ep.1 { ndp with next := none } (writeNext_get_self none hnodep)
            hndpprev (Seg.nil (some ep.1) none)
        have := seg_append (hcm1 ▸ hS1) hS2
        simpa only [modelAddrs, List.map_append, List.map_cons, List.map_nil, List.append_nil]
          using this
      have hnodes : ∀ e ∈ (m1c ++ [ep]) ++ ([] : List (Nat × String × JSVal)),
          ∃ nd', assocGet e.1 (writeNext s.heap ep.1 none) = some nd' ∧
            nd'.key = e.2.1 ∧ nd'.value = e.2.2 := by
        intro e he
        simp only [List.append_nil] at he
        obtain ⟨nd', hl', hk', hv'⟩ := hM.nodes e (List.mem_append.mpr (Or.inl he))
        rcases List.mem_append.mp he with hm | hm
        · refine ⟨nd', ?_, hk', hv'⟩
          rw [writeNext_get_ne none (fun hxe => hepm1c (by rw [← hxe]; exact mem_modelAddrs hm))]
          exact hl'
        · have he' : e = ep := List.mem_singleton.mp hm
          subst he'
          have hndp' : nd' = ndp := Option.some.inj (hl'.symm.trans hnodep)
          subst hndp'
          exact ⟨{ nd' with next := none }, writeNext_get_self none hnodep, hk', hv'⟩
      simp only [LRU.remove, hcache, hnode, hnext, hprev]
      refine ⟨model_of_parts hM hchain hnodes (writeNext_fst s.heap ep.1 none), ?_, ?_, ?_⟩ <;>
        trivial
  · -- the removed entry has a successor eb
    have hC2rest' : Seg s.heap (some a) nd.next (eb.1 :: modelAddrs m2c) s.tail none := by
      simpa only [modelAddrs, List.map_cons] using hC2rest
    obtain ⟨hnx, ndb, hnodeb, hndbprev, hC2c⟩ := seg_cons_inv hC2rest'
    have hA2' : (eb.1 :: modelAddrs m2c).Nodup := by
      simpa only [modelAddrs, List.map_cons] using hA2
    have hebm2c : eb.1 ∉ modelAddrs m2c := (List.nodup_cons.mp hA2').1
    have hmem_eb : eb.1 ∈ a :: modelAddrs (eb :: m2c) := by
      simp only [modelAddrs, List.map_cons]
      exact List.mem_cons_of_mem _ (List.mem_cons_self _ _)
    have hmemM2 : ∀ x ∈ modelAddrs m2c, x ∈ a :: modelAddrs (eb :: m2c) := by
      intro x hx
      simp only [modelAddrs, List.map_cons]
      exact List.mem_cons_of_mem _ (List.mem_cons_of_mem _ hx)
    rcases List.eq_nil_or_concat m1 with hm1 | ⟨m1c, ep, hm1⟩
    · subst hm1
      obtain ⟨hpm, _⟩ := seg_nil_inv hC1
      have hprev : nd.prev = none := hndprev.trans hpm
      have hframe2 : ∀ x ∈ modelAddrs m2c,
          assocGet x (writePrev s.heap eb.1 none) = assocGet x s.heap := by
        intro x hx
        exact writePrev_get_ne none (fun hxe => hebm2c (by rw [← hxe]; exact hx))
      have hchain : Seg (writePrev s.heap eb.1 none) none (some eb.1)
          (modelAddrs (([] : List (Nat × String × JSVal)) ++ eb :: m2c)) s.tail none := by
        have hrest : Seg (writePrev s.heap eb.1 none) (some eb.1) ndb.next
            (modelAddrs m2c) s.tail none := seg_frame hC2c hframe2
        have := Seg.cons eb.1 { ndb with prev := none }
          (writePrev_get_self none hnodeb) rfl hrest
        simpa only [modelAddrs, List.map_cons, List.nil_append] using this
      have hnodes : ∀ e ∈ ([] : List (Nat × String × JSVal)) ++ eb :: m2c,
          ∃ nd', assocGet e.1 (writePrev s.heap eb.1 none) = some nd' ∧
            nd'.key = e.2.1 ∧ nd'.value = e.2.2 := by
        intro e he
        simp only [List.nil_append] at he
        obtain ⟨nd', hl', hk', hv'⟩ := hM.nodes e (by
          rcases List.mem_cons.mp he with h1 | h2
          · simp [h1]
          · simp [h2])
        rcases List.mem_cons.mp he with h1 | h2
        · subst h1
          have hndb' : nd' = ndb := Option.some.inj (hl'.symm.trans hnodeb)
          subst hndb'
          exact ⟨{ nd' with prev := none }, writePrev_get_self none hnodeb, hk', hv'⟩
        · refine ⟨nd', ?_, hk', hv'⟩
          rw [writePrev_get_ne none (fun hxe => hebm2c (by rw [← hxe]; exact mem_modelAddrs h2))]
          exact hl'
      simp only [LRU.remove, hcache, hnode, hnx, hprev]
      refine ⟨model_of_parts hM hchain hnodes (writePrev_fst s.heap eb.1 none), ?_, ?_, ?_⟩ <;>
        trivial
    · rw [List.concat_eq_append] at hm1
      subst hm1
      -- interior removal: predecessor ep and successor eb both exist
      have hC1' : Seg s.heap none s.head (modelAddrs m1c ++ [ep.1]) pm (some a) := by
        rw [← hcm]
        simpa only [modelAddrs, List.map_append, List.map_cons, List.map_nil] using hC1
      obtain ⟨pm1, cm1, hD1, hD2⟩ := seg_split hC1'
      obtain ⟨hcm1, ndp, hnodep, hndpprev, hD2rest⟩ := seg_cons_inv hD2
      obtain ⟨hpm2, hpnext0⟩ := seg_nil_inv hD2rest
      have hprev : nd.prev = some ep.1 := hndprev.trans hpm2
      have hA1' : (modelAddrs m1c ++ [ep.1]).Nodup := by
        simpa only [modelAddrs, List.map_append, List.map_cons, List.map_nil] using hA1
      have hepm1c : ep.1 ∉ modelAddrs m1c := by
        obtain ⟨_, _, hd3⟩ := List.nodup_append.mp hA1'
        intro hmem
        exact hd3 hmem (List.mem_singleton.mpr rfl)
      have hepA1 : ep.1 ∈ modelAddrs (m1c ++ [ep]) := by
        simp only [modelAddrs, List.map_append, List.map_cons, List.map_nil]
        exact List.mem_append.mpr (Or.inr (List.mem_singleton.mpr rfl))
      have hmemM1 : ∀ x ∈ modelAddrs m1c, x ∈ modelAddrs (m1c ++ [ep]) := by
        intro x hx
        simp only [modelAddrs, List.map_append] at hx ⊢
        exact List.mem_append.mpr (Or.inl hx)
      have hepeb : ep.1 ≠ eb.1 := fun hh => hDisj hepA1 (by rw [hh]; exact hmem_eb)
      have hebep : eb.1 ≠ ep.1 := fun hh => hepeb hh.symm
      have hH1p : assocGet ep.1 (writePrev s.heap eb.1 (some ep.1)) = some ndp := by
        rw [writePrev_get_ne _ hepeb]
        exact hnodep
      have hHp : assocGet ep.1 (writeNext (writePrev s.heap eb.1 (some ep.1)) ep.1 (some eb.1)) =
          some { ndp with next := some eb.1 } := writeNext_get_self _ hH1p
      have hHb : assocGet eb.1 (writeNext (writePrev s.heap eb.1 (some ep.1)) ep.1 (some eb.1)) =
          some { ndb with prev := some ep.1 } := by
        rw [writeNext_get_ne _ hebep]
        exact writePrev_get_self _ hnodeb
      have hHother : ∀ x, x ≠ ep.1 → x ≠ eb.1 →
          assocGet x (writeNext (writePrev s.heap eb.1 (some ep.1)) ep.1 (some eb.1)) =
            assocGet x s.heap := by
        intro x hxp hxb
        rw [writeNext_get_ne _ hxp, writePrev_get_ne _ hxb]
      have hchain : Seg (writeNext (writePrev s.heap eb.1 (some ep.1)) ep.1 (some eb.1))
          none s.head (modelAddrs ((m1c ++ [ep]) ++ eb :: m2c)) s.tail none := by
        have hS1 : Seg (writeNext (writePrev s.heap eb.1 (some ep.1)) ep.1 (some eb.1))
            none s.head (modelAddrs m1c) pm1 cm1 := by
          refine seg_frame hD1 ?_
          intro x hx
          refine hHother x (fun hh => hepm1c (by rw [← hh]; exact hx)) ?_
          intro hh
          exact hDisj (hmemM1 x hx) (by rw [hh]; exact hmem_eb)
        have hS2 : Seg (writeNext (writePrev s.heap eb.1 (some ep.1)) ep.1 (some eb.1))
            pm1 (some ep.1) [ep.1] (some ep.1) (some eb.1) :=
          Seg.cons ep.1 { ndp with next := some eb.1 } hHp hndpprev
            (Seg.nil (some ep.1) (some eb.1))
        have hS3 : Seg (writeNext (writePrev s.heap eb.1 (some ep.1)) ep.1 (some eb.1))
            (some ep.1) (some eb.1) (eb.1 :: modelAddrs m2c) s.tail none := by
          refine Seg.cons eb.1 { ndb with prev := some ep.1 } hHb rfl ?_
          refine seg_frame hC2c ?_
          intro x hx
          refine hHother x ?_ (fun hh => hebm2c (by rw [← hh]; exact hx))
          intro hh
          exact hDisj hepA1 (by rw [← hh]; exact hmemM2 x hx)
        have := seg_append (seg_append (hcm1 ▸ hS1) hS2) hS3
        simpa only [modelAddrs, List.map_append, List.map_cons, List.map_nil,
          List.append_assoc, List.singleton_append] using this
      have hnodes : ∀ e ∈ (m1c ++ [ep]) ++ eb :: m2c,
          ∃ nd', assocGet e.1 (writeNext (writePrev s.heap eb.1 (some ep.1)) ep.1 (some eb.1)) =
            some nd' ∧ nd'.key = e.2.1 ∧ nd'.value = e.2.2 := by
        intro e he
        have hebig : e ∈ (m1c ++ [ep]) ++ (a, k, v) :: eb :: m2c := by
          rcases List.mem_append.mp he with hm | hm
          · exact List.mem_append.mpr (Or.inl hm)
          · exact List.mem_append.mpr (Or.inr (List.mem_cons_of_mem _ hm))
        obtain ⟨nd', hl', hk', hv'⟩ := hM.nodes e hebig
        rcases List.mem_append.mp he with hm | hm
        · rcases List.mem_append.mp hm with hmc | hmp
          · refine ⟨nd', ?_, hk', hv'⟩
            rw [hHother e.1 (fun hh => hepm1c (by rw [← hh]; exact mem_modelAddrs hmc)) ?_]
            · exact hl'
            · intro hh
              exact hDisj (hmemM1 e.1 (mem_modelAddrs hmc)) (by rw [hh]; exact hmem_eb)
          · have he' : e = ep := List.mem_singleton.mp hmp
            subst he'
            have hndp' : nd' = ndp := Option.some.inj (hl'.symm.trans hnodep)
            subst hndp'
            exact ⟨{ nd' with next := some eb.1 }, hHp, hk', hv'⟩
        · rcases List.mem_cons.mp hm with h1 | h2
          · subst h1
            have hndb' : nd' = ndb := Option.some.inj (hl'.symm.trans hnodeb)
            subst hndb'
            exact ⟨{ nd' with prev := some ep.1 }, hHb, hk', hv'⟩
          · refine ⟨nd', ?_, hk', hv'⟩
            rw [hHother e.1 ?_ (fun hh => hebm2c (by rw [← hh]; exact mem_modelAddrs h2))]
            · exact hl'
            · intro hh
              exact hDisj hepA1 (by rw [← hh]; exact hmemM2 e.1 (mem_modelAddrs h2))
      have hfst : (writeNext (writePrev s.heap eb.1 (some ep.1)) ep.1 (some eb.1)).map Prod.fst =
          s.heap.map Prod.fst := by
        rw [writeNext_fst, writePrev_fst]
      simp only [LRU.remove, hcache, hnode, hnx, hprev]
      refine ⟨model_of_parts hM hchain hnodes hfst, ?_, ?_, ?_⟩ <;> trivial

/- Insertion lemmas. -/

theorem assocSet_fst_of_none {α β : Type} [DecidableEq α] {k : α} {v : β} :
    ∀ {l : List (α × β)}, assocGet k l = none →
      (assocSet k v l).map Prod.fst = l.map Prod.fst ++ [k] := by
  intro l
  induction l with
  | nil => intro _; simp [assocSet]
  | cons p t ih =>
    intro h
    by_cases hp : p.1 = k
    · rw [assocGet, if_pos hp] at h
      exact absurd h (by simp)
    · rw [assocGet, if_neg hp] at h
      simp [assocSet, hp, ih h]

theorem remove_absent {s : LRU} {k : String} (h : assocGet k s.cache = none) :
    LRU.remove k s = s := by
  simp [LRU.remove, h]

theorem model_cache_none {s : LRU} {m : List (Nat × String × JSVal)} {k : String}
    (hM : Model s m) (hk : k ∉ modelKeys m) : assocGet k s.cache = none := by
  cases hc : assocGet k s.cache with
  | none => rfl
  | some a =>
    obtain ⟨v, hv⟩ := hM.cacheOnly k a hc
    exact absurd (List.mem_map.mpr ⟨_, hv, rfl⟩) hk

theorem model_mem_split {m : List (Nat × String × JSVal)} {k : String}
    (hk : k ∈ modelKeys m) : ∃ m1 a v m2, m = m1 ++ (a, k, v) :: m2 := by
  obtain ⟨e, he, hek⟩ := List.mem_map.mp hk
  obtain ⟨m1, m2, rfl⟩ := List.append_of_mem he
  rcases e with ⟨a, k', v⟩
  simp only at hek
  subst hek
  exact ⟨m1, a, v, m2, rfl⟩

theorem addCore_model {s : LRU} {m : List (Nat × String × JSVal)} {k : String} {v : JSVal}
    (hM : Model s m) (hk : k ∉ modelKeys m) :
    Model (LRU.addCore k v s) ((s.fresh, k, v) :: m) := by
  obtain ⟨hC, hN, hCo, hCoo, hA, hK, hS, hCn, hHn, hF⟩ := hM
  have hfreshHeap : assocGet s.fresh s.heap = none := by
    apply assocGet_eq_none
    intro hmem
    exact absurd (hF _ hmem) (lt_irrefl _)
  have hchainLt : ∀ x ∈ modelAddrs m, x < s.fresh := by
    intro x hx
    obtain ⟨nd, hnd⟩ := seg_lookup hC _ hx
    exact hF _ (List.mem_map_of_mem Prod.fst (assocGet_mem hnd))
  have hfreshChain : s.fresh ∉ modelAddrs m := by
    intro hmem
    exact absurd (hchainLt _ hmem) (lt_irrefl _)
  have hcacheNone : assocGet k s.cache = none := by
    cases hc : assocGet k s.cache with
    | none => rfl
    | some a =>
      obtain ⟨v', hv'⟩ := hCoo k a hc
      exact absurd (List.mem_map.mpr ⟨_, hv', rfl⟩) hk
  cases hh : s.head with
  | none =>
    have hm : m = [] := by
      cases m with
      | nil => rfl
      | cons e0 m' =>
        have hC' : Seg s.heap none s.head (e0.1 :: modelAddrs m') s.tail none := by
          simpa only [modelAddrs, List.map_cons] using hC
        have hc0 := (seg_cons_inv hC').1
        rw [hh] at hc0
        exact absurd hc0 (by simp)
    subst hm
    simp only [LRU.addCore, hh]
    refine ⟨?_, ?_, ?_, ?_, ?_, ?_, ?_, ?_, ?_, ?_⟩
    · exact Seg.cons s.fresh (Node.mk k v none none) (assocGet_set_self _ _ _) rfl
        (Seg.nil (some s.fresh) none)
    · intro e he
      rcases List.mem_singleton.mp he with rfl
      exact ⟨Node.mk k v none none, assocGet_set_self _ _ _, rfl, rfl⟩
    · intro e he
      rcases List.mem_singleton.mp he with rfl
      exact assocGet_set_self _ _ _
    · intro k' a' hget
      by_cases hkk : k' = k
      · subst hkk
        rw [assocGet_set_self] at hget
        exact ⟨v, by simp [← Option.some.inj hget]⟩
      · rw [assocGet_set_ne _ hkk] at hget
        obtain ⟨v', hv'⟩ := hCoo k' a' hget
        exact absurd hv' (by simp)
    · simp [modelAddrs]
    · simp [modelKeys]
    · show s.size + 1 = _
      rw [hS]
      simp
    · exact assocSet_fst_nodup hCn
    · show ((assocSet s.fresh (Node.mk k v none none) s.heap).map Prod.fst).Nodup
      rw [assocSet_fst_of_none hfreshHeap]
      refine List.Nodup.append hHn (List.nodup_singleton _) ?_
      intro x hx hx'
      rw [List.mem_singleton.mp hx'] at hx
      exact absurd (hF _ hx) (lt_irrefl _)
    · intro x hx
      show x < s.fresh + 1
      rw [show ((assocSet s.fresh (Node.mk k v none none) s.heap).map Prod.fst) =
        s.heap.map Prod.fst ++ [s.fresh] from assocSet_fst_of_none hfreshHeap] at hx
      rcases List.mem_append.mp hx with hx | hx
      · exact lt_trans (hF _ hx) (by omega)
      · rw [List.mem_singleton.mp hx]
        omega
  | some hd =>
    cases m with
    | nil =>
      exfalso
      have := (seg_nil_inv (show Seg s.heap none s.head [] s.tail none from by
        simpa only [modelAddrs, List.map_nil] using hC)).2
      rw [hh] at this
      exact absurd this (by simp)
    | cons e0 m' =>
      have hC' : Seg s.heap none s.head (e0.1 :: modelAddrs m') s.tail none := by
        simpa only [modelAddrs, List.map_cons] using hC
      obtain ⟨hc0, nd0, hnd0, hnd0prev, hCrest⟩ := seg_cons_inv hC'
      have hhd : hd = e0.1 := by
        rw [hh] at hc0
        exact Option.some.inj hc0
      subst hhd
      have he0lt : e0.1 < s.fresh := hchainLt _ (by simp [modelAddrs])
      have he0ne : e0.1 ≠ s.fresh := fun hq => absurd (hq ▸ he0lt) (lt_irrefl _)
      have hfne0 : s.fresh ≠ e0.1 := fun hq => he0ne hq.symm
      have hA' : (e0.1 :: modelAddrs m').Nodup := by
        simpa only [modelAddrs, List.map_cons] using hA
      have he0m' : e0.1 ∉ modelAddrs m' := (List.nodup_cons.mp hA').1
      have hlookF : assocGet s.fresh
          (writePrev (assocSet s.fresh (Node.mk k v (some e0.1) none) s.heap) e0.1 (some s.fresh)) =
          some (Node.mk k v (some e0.1) none) := by
        rw [writePrev_get_ne _ hfne0]
        exact assocGet_set_self _ _ _
      have hlookE0 : assocGet e0.1
          (writePrev (assocSet s.fresh (Node.mk k v (some e0.1) none) s.heap) e0.1 (some s.fresh)) =
          some { nd0 with prev := some s.fresh } := by
        refine writePrev_get_self _ ?_
        rw [assocGet_set_ne _ he0ne]
        exact hnd0
      have hlookOther : ∀ x, x ≠ s.fresh → x ≠ e0.1 →
          assocGet x (writePrev (assocSet s.fresh (Node.mk k v (some e0.1) none) s.heap)
            e0.1 (some s.fresh)) = assocGet x s.heap := by
        intro x hxf hxe
        rw [writePrev_get_ne _ hxe, assocGet_set_ne _ hxf]
      simp only [LRU.addCore, hh]
      refine ⟨?_, ?_, ?_, ?_, ?_, ?_, ?_, ?_, ?_, ?_⟩
      · show Seg _ none (some s.fresh) (modelAddrs ((s.fresh, k, v) :: e0 :: m')) s.tail none
        have hrest : Seg (writePrev (assocSet s.fresh (Node.mk k v (some e0.1) none) s.heap)
            e0.1 (some s.fresh)) (some e0.1) nd0.next (modelAddrs m') s.tail none := by
          refine seg_frame hCrest ?_
          intro x hx
          refine hlookOther x ?_ (fun hq => he0m' (by rw [← hq]; exact hx))
          intro hq
          have : x < s.fresh := hchainLt x (by
            simp only [modelAddrs, List.map_cons]
            exact List.mem_cons_of_mem _ hx)
          exact absurd (hq ▸ this) (lt_irrefl _)
        have hmid : Seg (writePrev (assocSet s.fresh (Node.mk k v (some e0.1) none) s.heap)
            e0.1 (some s.fresh)) (some s.fresh) (some e0.1) (e0.1 :: modelAddrs m')
            s.tail none := Seg.cons e0.1 { nd0 with prev := some s.fresh } hlookE0 rfl hrest
        have := Seg.cons s.fresh (Node.mk k v (some e0.1) none) hlookF rfl hmid
        simpa only [modelAddrs, List.map_cons] using this
      · intro e he
        rcases List.mem_cons.mp he with rfl | he2
        · exact ⟨Node.mk k v (some e0.1) none, hlookF, rfl, rfl⟩
        · obtain ⟨nd', hl', hk', hv'⟩ := hN e he2
          rcases List.mem_cons.mp he2 with rfl | he3
          · have hnd0' : nd' = nd0 := Option.some.inj (hl'.symm.trans hnd0)
            subst hnd0'
            exact ⟨{ nd' with prev := some s.fresh }, hlookE0, hk', hv'⟩
          · refine ⟨nd', ?_, hk', hv'⟩
            have hxe : e.1 ≠ e0.1 := fun hq => he0m' (by rw [← hq]; exact mem_modelAddrs he3)
            have hxf : e.1 ≠ s.fresh := by
              intro hq
              have : e.1 < s.fresh := hchainLt _ (by
                simp only [modelAddrs, List.map_cons]
                exact List.mem_cons_of_mem _ (mem_modelAddrs he3))
              exact absurd (hq ▸ this) (lt_irrefl _)
            rw [hlookOther _ hxf hxe]
            exact hl'
      · intro e he
        rcases List.mem_cons.mp he with rfl | he2
        · exact assocGet_set_self _ _ _
        · have hek : e.2.1 ≠ k := by
            intro hq
            exact hk (by rw [← hq]; exact List.mem_map_of_mem _ he2)
          rw [assocGet_set_ne _ hek]
          exact hCo e he2
      · intro k' a' hget
        by_cases hkk : k' = k
        · subst hkk
          rw [assocGet_set_self] at hget
          exact ⟨v, by simp [← Option.some.inj hget]⟩
        · rw [assocGet_set_ne _ hkk] at hget
          obtain ⟨v', hv'⟩ := hCoo k' a' hget
          exact ⟨v', List.mem_cons_of_mem _ hv'⟩
      · show (modelAddrs ((s.fresh, k, v) :: e0 :: m')).Nodup
        simp only [modelAddrs, List.map_cons] at hfreshChain hA ⊢
        exact List.nodup_cons.mpr ⟨by simpa only [modelAddrs, List.map_cons] using hfreshChain, hA⟩
      · show (modelKeys ((s.fresh, k, v) :: e0 :: m')).Nodup
        simp only [modelKeys, List.map_cons] at hk hK ⊢
        exact List.nodup_cons.mpr ⟨by simpa only [modelKeys, List.map_cons] using hk, hK⟩
      · show s.size + 1 = _
        rw [hS]
        simp only [List.length_cons]
        push_cast
        ring
      · exact assocSet_fst_nodup hCn
      · show (((writePrev (assocSet s.fresh (Node.mk k v (some e0.1) none) s.heap)
          e0.1 (some s.fresh))).map Prod.fst).Nodup
        rw [writePrev_fst, assocSet_fst_of_none hfreshHeap]
        refine List.Nodup.append hHn (List.nodup_singleton _) ?_
        intro x hx hx'
        rw [List.mem_singleton.mp hx'] at hx
        exact absurd (hF _ hx) (lt_irrefl _)
      · intro x hx
        show x < s.fresh + 1
        rw [show ((writePrev (assocSet s.fresh (Node.mk k v (some e0.1) none) s.heap)
          e0.1 (some s.fresh)).map Prod.fst) = s.heap.map Prod.fst ++ [s.fresh] from by
            rw [writePrev_fst, assocSet_fst_of_none hfreshHeap]] at hx
        rcases List.mem_append.mp hx with hx | hx
        · exact lt_trans (hF _ hx) (by omega)
        · rw [List.mem_singleton.mp hx]
          omega

/- Small shape lemmas for addCore. -/

theorem addCore_head (k : String) (v : JSVal) (s : LRU) :
    (LRU.addCore k v s).head = some s.fresh := by
  cases hh : s.head <;> simp [LRU.addCore, hh]

theorem addCore_size (k : String) (v : JSVal) (s : LRU) :
    (LRU.addCore k v s).size = s.size + 1 := by
  cases hh : s.head <;> simp [LRU.addCore, hh]

theorem addCore_limit (k : String) (v : JSVal) (s : LRU) :
    (LRU.addCore k v s).limit = s.limit := by
  cases hh : s.head <;> simp [LRU.addCore, hh]

theorem addCore_fresh (k : String) (v : JSVal) (s : LRU) :
    (LRU.addCore k v s).fresh = s.fresh + 1 := by
  cases hh : s.head <;> simp [LRU.addCore, hh]

theorem addCore_cache (k : String) (v : JSVal) (s : LRU) :
    (LRU.addCore k v s).cache = assocSet k s.fresh s.cache := by
  cases hh : s.head <;> simp [LRU.addCore, hh]

/- enforceLimit and add. -/

theorem enforceLimit_noop {s : LRU} (h : s.limit ≠ s.size) : LRU.enforceLimit s = some s := by
  simp [LRU.enforceLimit, h]

theorem enforceLimit_evict {s : LRU} {m' : List (Nat × String × JSVal)} {a0 : Nat} {k0 : String}
    {v0 : JSVal} (hM : Model s (m' ++ [(a0, k0, v0)])) (heq : s.limit = s.size) :
    LRU.enforceLimit s = some (LRU.remove k0 s) := by
  have hC' : Seg s.heap none s.head (modelAddrs m' ++ [a0]) s.tail none := by
    simpa only [modelAddrs, List.map_append, List.map_cons, List.map_nil] using hM.chain
  obtain ⟨pm, cm, h1, h2⟩ := seg_split hC'
  obtain ⟨hcm, nd, hnd, hndp, hrest⟩ := seg_cons_inv h2
  obtain ⟨htail, _⟩ := seg_nil_inv hrest
  obtain ⟨nd', hnd', hk', hv'⟩ := hM.nodes (a0, k0, v0) (by simp)
  have hndeq : nd' = nd := Option.some.inj (hnd'.symm.trans hnd)
  subst hndeq
  have hkk : nd'.key = k0 := hk'
  simp [LRU.enforceLimit, heq, htail, hnd', hkk]

theorem add_noFull {s : LRU} {k : String} {v : JSVal} (hne : s.limit ≠ s.size) :
    LRU.add k v s = some (LRU.addCore k v s) := by
  simp [LRU.add, enforceLimit_noop hne]

theorem add_model_noFull {s : LRU} {m : List (Nat × String × JSVal)} {k : String} {v : JSVal}
    (hM : Model s m) (hk : k ∉ modelKeys m) (hne : s.limit ≠ s.size) :
    LRU.add k v s = some (LRU.addCore k v s) ∧
      Model (LRU.addCore k v s) ((s.fresh, k, v) :: m) :=
  ⟨add_noFull hne, addCore_model hM hk⟩

theorem add_model_full {s : LRU} {m' : List (Nat × String × JSVal)} {a0 : Nat} {k0 : String}
    {v0 : JSVal} {k : String} {v : JSVal}
    (hM : Model s (m' ++ [(a0, k0, v0)])) (hk : k ∉ modelKeys (m' ++ [(a0, k0, v0)]))
    (heq : s.limit = s.size) :
    LRU.add k v s = some (LRU.addCore k v (LRU.remove k0 s)) ∧
      Model (LRU.addCore k v (LRU.remove k0 s)) ((s.fresh, k, v) :: m') := by
  have hev := enforceLimit_evict hM heq
  obtain ⟨hMr, hliml, hfr, hsz⟩ := remove_model hM
  have hMr' : Model (LRU.remove k0 s) m' := by simpa using hMr
  have hk' : k ∉ modelKeys m' := by
    intro hq
    refine hk ?_
    simp only [modelKeys, List.map_append] at hq ⊢
    exact List.mem_append.mpr (Or.inl hq)
  have hMa : Model (LRU.addCore k v (LRU.remove k0 s))
      (((LRU.remove k0 s).fresh, k, v) :: m') := addCore_model hMr' hk'
  rw [hfr] at hMa
  exact ⟨by simp [LRU.add, hev], hMa⟩

/- read. -/

theorem read_absent {s : LRU} {m : List (Nat × String × JSVal)} {k : String}
    (hM : Model s m) (hk : k ∉ modelKeys m) : LRU.read k s = some (JSVal.vnull, s) := by
  simp [LRU.read, model_cache_none hM hk]

theorem read_model {s : LRU} {m1 m2 : List (Nat × String × JSVal)} {a : Nat} {k : String}
    {v : JSVal} (hM : Model s (m1 ++ (a, k, v) :: m2))
    (hcap : ((m1 ++ (a, k, v) :: m2).length : Int) ≤ s.limit) :
    LRU.read k s = some (v, LRU.addCore k v (LRU.remove k s)) ∧
      Model (LRU.addCore k v (LRU.remove k s)) ((s.fresh, k, v) :: (m1 ++ m2)) := by
  have hmemE : ((a, k, v) : Nat × String × JSVal) ∈ m1 ++ (a, k, v) :: m2 := by simp
  have hcache : assocGet k s.cache = some a := hM.cacheOf _ hmemE
  obtain ⟨nd, hnd, hndk, hndv⟩ := hM.nodes _ hmemE
  obtain ⟨hMr, hliml, hfr, hsz⟩ := remove_model hM
  have hkm : k ∉ modelKeys (m1 ++ m2) := by
    intro hmem
    obtain ⟨e, he, hek⟩ := List.mem_map.mp hmem
    exact keys_ne_of_nodup hM.keysNodup e he hek
  have hSbig : s.size = ((m1 ++ (a, k, v) :: m2).length : Int) := hM.sizeEq
  have hne : (LRU.remove k s).limit ≠ (LRU.remove k s).size := by
    rw [hliml, hsz, hSbig]
    simp only [List.length_append, List.length_cons]
    simp only [List.length_append, List.length_cons] at hcap
    intro hq
    push_cast at hq hcap
    omega
  have hMa : Model (LRU.addCore k v (LRU.remove k s))
      (((LRU.remove k s).fresh, k, v) :: (m1 ++ m2)) := addCore_model hMr hkm
  rw [hfr] at hMa
  have hvnd : nd.value = v := hndv
  constructor
  · simp only [LRU.read, hcache, hnd, add_noFull hne, hvnd]
    rfl
  · exact hMa

/- Every reachable state satisfies the structural invariant and the
capacity bound. -/

theorem reach_model {s : LRU} (h : Reach s) :
    ∃ m, Model s m ∧ (m.length : Int) ≤ s.limit ∧ 1 ≤ s.limit := by
  induction h with
  | init c hc =>
    refine ⟨[], ?_, by simp [LRU.new]; omega, hc⟩
    refine ⟨Seg.nil none none, by simp, by simp, ?_, by simp [modelAddrs],
      by simp [modelKeys], rfl, by simp [LRU.new], by simp [LRU.new], ?_⟩
    · intro k a hget
      simp [LRU.new, assocGet] at hget
    · intro x hx
      simp [LRU.new] at hx
  | @put s s' k v hr hab hadd ih =>
    obtain ⟨m, hM, hcap, hlim⟩ := ih
    have hk : k ∉ modelKeys m := by
      intro hq
      obtain ⟨m1, a, v', m2, rfl⟩ := model_mem_split hq
      have hco := hM.cacheOf (a, k, v') (by simp)
      have : some a = none := hco.symm.trans hab
      simp at this
    by_cases heq : s.limit = s.size
    · have hlen : 1 ≤ m.length := by
        by_contra hq
        push_neg at hq
        have hm0 : m = [] := List.length_eq_zero.mp (by omega)
        subst hm0
        have hz : s.size = 0 := by simpa using hM.sizeEq
        rw [hz] at heq
        omega
      rcases List.eq_nil_or_concat m with rfl | ⟨m', e0, hm⟩
      · simp at hlen
      · rw [List.concat_eq_append] at hm
        subst hm
        rcases e0 with ⟨a0, k0, v0⟩
        obtain ⟨haddEq, hMnew⟩ := add_model_full hM hk heq
        have hs' : s' = LRU.addCore k v (LRU.remove k0 s) :=
          Option.some.inj (hadd.symm.trans haddEq)
        subst hs'
        have hliml := (remove_model hM).2.1
        have hl1 : (LRU.addCore k v (LRU.remove k0 s)).limit = s.limit := by
          rw [addCore_limit, hliml]
        refine ⟨(s.fresh, k, v) :: m', hMnew, ?_, ?_⟩
        · rw [hl1]
          simp only [List.length_cons]
          simp only [List.length_append, List.length_cons, List.length_nil] at hcap
          push_cast at hcap ⊢
          omega
        · rw [hl1]
          exact hlim
    · obtain ⟨haddEq, hMnew⟩ := add_model_noFull hM hk heq
      have hs' : s' = LRU.addCore k v s := Option.some.inj (hadd.symm.trans haddEq)
      subst hs'
      have hsz : s.size = (m.length : Int) := hM.sizeEq
      refine ⟨(s.fresh, k, v) :: m, hMnew, ?_, ?_⟩
      · rw [addCore_limit]
        simp only [List.length_cons]
        push_cast
        rw [hsz] at heq
        omega
      · rw [addCore_limit]
        exact hlim
  | @get s s' k v hr hread ih =>
    obtain ⟨m, hM, hcap, hlim⟩ := ih
    by_cases hq : k ∈ modelKeys m
    · obtain ⟨m1, a, v', m2, rfl⟩ := model_mem_split hq
      obtain ⟨hreadEq, hMnew⟩ := read_model hM hcap
      have hpair := Option.some.inj (hread.symm.trans hreadEq)
      have hs' : s' = LRU.addCore k v' (LRU.remove k s) := congrArg Prod.snd hpair
      subst hs'
      have hliml := (remove_model hM).2.1
      have hl1 : (LRU.addCore k v' (LRU.remove k s)).limit = s.limit := by
        rw [addCore_limit, hliml]
      refine ⟨(s.fresh, k, v') :: (m1 ++ m2), hMnew, ?_, ?_⟩
      · rw [hl1]
        simp only [List.length_cons, List.length_append]
        simp only [List.length_append, List.length_cons] at hcap
        push_cast at hcap ⊢
        omega
      · rw [hl1]
        exact hlim
    · have habs := read_absent hM hq
      have hpair := Option.some.inj (hread.symm.trans habs)
      have hs' : s' = s := congrArg Prod.snd hpair
      subst hs'
      exact ⟨m, hM, hcap, hlim⟩
  | @del s k hr ih =>
    obtain ⟨m, hM, hcap, hlim⟩ := ih
    by_cases hq : k ∈ modelKeys m
    · obtain ⟨m1, a, v', m2, rfl⟩ := model_mem_split hq
      obtain ⟨hMr, hliml, _, _⟩ := remove_model hM
      refine ⟨m1 ++ m2, hMr, ?_, ?_⟩
      · rw [hliml]
        simp only [List.length_append]
        simp only [List.length_append, List.length_cons] at hcap
        push_cast at hcap ⊢
        omega
      · rw [hliml]
        exact hlim
    · rw [remove_absent (model_cache_none hM hq)]
      exact ⟨m, hM, hcap, hlim⟩

/- Helper facts used by the claim theorems. -/

theorem model_new (c : Int) : Model (LRU.new c) [] := by
  refine ⟨Seg.nil none none, by simp, by simp, ?_, by simp [modelAddrs],
    by simp [modelKeys], rfl, by simp [LRU.new], by simp [LRU.new], ?_⟩
  · intro k a hget
    simp [LRU.new, assocGet] at hget
  · intro x hx
    simp [LRU.new] at hx

theorem chainKeys_model {s : LRU} {m : List (Nat × String × JSVal)} (hM : Model s m) :
    chainKeys s = modelKeys m := by
  unfold chainKeys
  exact chainKeysFrom_spec m (s.heap.length + 1) hM.chain hM.nodes
    (le_trans (model_length_le hM) (by omega))

theorem singleStore_model (k : String) (v : JSVal) (c : Int) :
    Model (singleStore k v c) [(0, k, v)] := by
  refine ⟨?_, ?_, ?_, ?_, ?_, ?_, ?_, ?_, ?_, ?_⟩
  · exact Seg.cons 0 (Node.mk k v none none) rfl rfl (Seg.nil (some 0) none)
  · intro e he
    rcases List.mem_singleton.mp he with rfl
    exact ⟨Node.mk k v none none, rfl, rfl, rfl⟩
  · intro e he
    rcases List.mem_singleton.mp he with rfl
    simp [singleStore, assocGet]
  · intro k' a' hget
    simp only [singleStore, assocGet] at hget
    split at hget
    · rename_i hkk
      refine ⟨v, ?_⟩
      have ha' : a' = 0 := (Option.some.inj hget).symm
      simp [← hkk, ha']
    · exact absurd hget (by simp)
  · simp [modelAddrs]
  · simp [modelKeys]
  · rfl
  · simp [singleStore]
  · simp [singleStore]
  · intro x hx
    show x < 1
    simp [singleStore] at hx
    omega

theorem putAll_append (l1 l2 : List (String × JSVal)) (s : LRU) :
    putAll (l1 ++ l2) s =
      match putAll l1 s with
      | none => none
      | some s2 => putAll l2 s2 := by
  induction l1 generalizing s with
  | nil => rfl
  | cons p t ih =>
    rcases p with ⟨k, v⟩
    simp only [List.cons_append, putAll]
    cases LRU.add k v s with
    | none => rfl
    | some s2 => exact ih s2

theorem putAll_model :
    ∀ (kvs : List (String × JSVal)) (s : LRU) (m : List (Nat × String × JSVal)),
      Model s m → (kvs.map Prod.fst).Nodup → (∀ kv ∈ kvs, kv.1 ∉ modelKeys m) →
      ((m.length : Int) + kvs.length ≤ s.limit) →
      ∃ (s' : LRU) (ents : List (Nat × String × JSVal)),
        putAll kvs s = some s' ∧ Model s' (ents.reverse ++ m) ∧
        ents.map (fun e => (e.2.1, e.2.2)) = kvs ∧ s'.limit = s.limit := by
  intro kvs
  induction kvs with
  | nil =>
    intro s m hM _ _ _
    exact ⟨s, [], rfl, by simpa using hM, rfl, rfl⟩
  | cons p t ih =>
    intro s m hM hnd hdisj hcap
    rcases p with ⟨k, v⟩
    have hk : k ∉ modelKeys m := hdisj (k, v) (by simp)
    have hne : s.limit ≠ s.size := by
      have hs := hM.sizeEq
      simp only [List.length_cons] at hcap
      push_cast at hcap
      intro hq
      rw [hq, hs] at hcap
      omega
    obtain ⟨haddEq, hM1⟩ := add_model_noFull hM hk hne
    have hnd' : (t.map Prod.fst).Nodup := by
      simp only [List.map_cons, List.nodup_cons] at hnd
      exact hnd.2
    have hkt : k ∉ t.map Prod.fst := by
      simp only [List.map_cons, List.nodup_cons] at hnd
      exact hnd.1
    have hdisj' : ∀ kv ∈ t, kv.1 ∉ modelKeys ((s.fresh, k, v) :: m) := by
      intro kv hkv hq
      simp only [modelKeys, List.map_cons, List.mem_cons] at hq
      rcases hq with hq | hq
      · exact hkt (hq ▸ List.mem_map_of_mem Prod.fst hkv)
      · exact hdisj kv (List.mem_cons_of_mem _ hkv) hq
    have hcap' : (((s.fresh, k, v) :: m).length : Int) + t.length ≤
        (LRU.addCore k v s).limit := by
      rw [addCore_limit]
      simp only [List.length_cons]
      simp only [List.length_cons] at hcap
      push_cast at hcap ⊢
      omega
    obtain ⟨s', ents', hput, hMnew, hmap, hlim⟩ := ih (LRU.addCore k v s)
      ((s.fresh, k, v) :: m) hM1 hnd' hdisj' hcap'
    refine ⟨s', (s.fresh, k, v) :: ents', ?_, ?_, ?_, ?_⟩
    · simp only [putAll, haddEq]
      exact hput
    · simpa only [List.reverse_cons, List.append_assoc, List.singleton_append] using hMnew
    · simp only [List.map_cons, hmap]
    · rw [hlim, addCore_limit]

theorem addCore_chain_nodes {s : LRU} {m : List (Nat × String × JSVal)} (k : String) (v : JSVal)
    (hM : Model s m) :
    Seg (LRU.addCore k v s).heap none (some s.fresh) (s.fresh :: modelAddrs m)
      (LRU.addCore k v s).tail none ∧
    ∀ e ∈ (s.fresh, k, v) :: m,
      ∃ nd, assocGet e.1 (LRU.addCore k v s).heap = some nd ∧ nd.key = e.2.1 ∧
        nd.value = e.2.2 := by
  obtain ⟨hC, hN, hCo, hCoo, hA, hK, hS, hCn, hHn, hF⟩ := hM
  have hfreshHeap : assocGet s.fresh s.heap = none := by
    apply assocGet_eq_none
    intro hmem
    exact absurd (hF _ hmem) (lt_irrefl _)
  have hchainLt : ∀ x ∈ modelAddrs m, x < s.fresh := by
    intro x hx
    obtain ⟨nd, hnd⟩ := seg_lookup hC _ hx
    exact hF _ (List.mem_map_of_mem Prod.fst (assocGet_mem hnd))
  cases hh : s.head with
  | none =>
    have hm : m = [] := by
      cases m with
      | nil => rfl
      | cons e0 m' =>
        have hC' : Seg s.heap none s.head (e0.1 :: modelAddrs m') s.tail none := by
          simpa only [modelAddrs, List.map_cons] using hC
        have hc0 := (seg_cons_inv hC').1
        rw [hh] at hc0
        exact absurd hc0 (by simp)
    subst hm
    simp only [LRU.addCore, hh]
    constructor
    · exact Seg.cons s.fresh (Node.mk k v none none) (assocGet_set_self _ _ _) rfl
        (Seg.nil (some s.fresh) none)
    · intro e he
      rcases List.mem_singleton.mp he with rfl
      exact ⟨Node.mk k v none none, assocGet_set_self _ _ _, rfl, rfl⟩
  | some hd =>
    cases m with
    | nil =>
      exfalso
      have hx := (seg_nil_inv (show Seg s.heap none s.head [] s.tail none from by
        simpa only [modelAddrs, List.map_nil] using hC)).2
      rw [hh] at hx
      exact absurd hx (by simp)
    | cons e0 m' =>
      have hC' : Seg s.heap none s.head (e0.1 :: modelAddrs m') s.tail none := by
        simpa only [modelAddrs, List.map_cons] using hC
      obtain ⟨hc0, nd0, hnd0, hnd0prev, hCrest⟩ := seg_cons_inv hC'
      have hhd : hd = e0.1 := by
        rw [hh] at hc0
        exact Option.some.inj hc0
      subst hhd
      have he0lt : e0.1 < s.fresh := hchainLt _ (by simp [modelAddrs])
      have he0ne : e0.1 ≠ s.fresh := fun hq => absurd (hq ▸ he0lt) (lt_irrefl _)
      have hfne0 : s.fresh ≠ e0.1 := fun hq => he0ne hq.symm
      have hA' : (e0.1 :: modelAddrs m').Nodup := by
        simpa only [modelAddrs, List.map_cons] using hA
      have he0m' : e0.1 ∉ modelAddrs m' := (List.nodup_cons.mp hA').1
      have hlookF : assocGet s.fresh
          (writePrev (assocSet s.fresh (Node.mk k v (some e0.1) none) s.heap) e0.1
            (some s.fresh)) = some (Node.mk k v (some e0.1) none) := by
        rw [writePrev_get_ne _ hfne0]
        exact assocGet_set_self _ _ _
      have hlookE0 : assocGet e0.1
          (writePrev (assocSet s.fresh (Node.mk k v (some e0.1) none) s.heap) e0.1
            (some s.fresh)) = some { nd0 with prev := some s.fresh } := by
        refine writePrev_get_self _ ?_
        rw [assocGet_set_ne _ he0ne]
        exact hnd0
      have hlookOther : ∀ x, x ≠ s.fresh → x ≠ e0.1 →
          assocGet x (writePrev (assocSet s.fresh (Node.mk k v (some e0.1) none) s.heap)
            e0.1 (some s.fresh)) = assocGet x s.heap := by
        intro x hxf hxe
        rw [writePrev_get_ne _ hxe, assocGet_set_ne _ hxf]
      simp only [LRU.addCore, hh]
      constructor
      · show Seg _ none (some s.fresh) (s.fresh :: modelAddrs (e0 :: m')) s.tail none
        have hrest : Seg (writePrev (assocSet s.fresh (Node.mk k v (some e0.1) none) s.heap)
            e0.1 (some s.fresh)) (some e0.1) nd0.next (modelAddrs m') s.tail none := by
          refine seg_frame hCrest ?_
          intro x hx
          refine hlookOther x ?_ (fun hq => he0m' (by rw [← hq]; exact hx))
          intro hq
          have hxlt : x < s.fresh := hchainLt x (by
            simp only [modelAddrs, List.map_cons]
            exact List.mem_cons_of_mem _ hx)
          exact absurd (hq ▸ hxlt) (lt_irrefl _)
        have hmid := Seg.cons e0.1 { nd0 with prev := some s.fresh } hlookE0 rfl hrest
        have := Seg.cons s.fresh (Node.mk k v (some e0.1) none) hlookF rfl hmid
        simpa only [modelAddrs, List.map_cons] using this
      · intro e he
        rcases List.mem_cons.mp he with rfl | he2
        · exact ⟨Node.mk k v (some e0.1) none, hlookF, rfl, rfl⟩
        · obtain ⟨nd', hl', hk', hv'⟩ := hN e he2
          rcases List.mem_cons.mp he2 with rfl | he3
          · have hnd0' : nd' = nd0 := Option.some.inj (hl'.symm.trans hnd0)
            subst hnd0'
            exact ⟨{ nd' with prev := some s.fresh }, hlookE0, hk', hv'⟩
          · refine ⟨nd', ?_, hk', hv'⟩
            have hxe : e.1 ≠ e0.1 := fun hq => he0m' (by rw [← hq]; exact mem_modelAddrs he3)
            have hxf : e.1 ≠ s.fresh := by
              intro hq
              have hxlt : e.1 < s.fresh := hchainLt _ (by
                simp only [modelAddrs, List.map_cons]
                exact List.mem_cons_of_mem _ (mem_modelAddrs he3))
              exact absurd (hq ▸ hxlt) (lt_irrefl _)
            rw [hlookOther _ hxf hxe]
            exact hl'

/- Claim theorems. -/

/-- C5 (amended): constructing a store with capacity at most zero does not
fail: the constructor performs no validation and returns a usable handle
with the given capacity, zero entries and an empty index; with capacity 0
the failure is deferred to the first put, which throws. -/
theorem claim5_construction (c : Int) (hc : c ≤ 0) :
    (LRU.new c).limit = c ∧ (LRU.new c).size = 0 ∧ (LRU.new c).cache = [] ∧
      (c = 0 → ∀ (k : String) (v : JSVal), LRU.add k v (LRU.new c) = none) := by
  refine ⟨rfl, rfl, rfl, ?_⟩
  intro h0 k v
  subst h0
  rfl

/-- C5 counterexample: the claim says construction with capacity less than
or equal to zero is rejected and no usable handle is produced; in fact
new LRU(0) yields a working store handle with limit 0 on which get returns
the not-found marker. -/
theorem claim5_counterexample :
    (LRU.new 0).limit = 0 ∧ (LRU.new 0).size = 0 ∧
      LRU.read "k" (LRU.new 0) = some (JSVal.vnull, LRU.new 0) :=
  ⟨rfl, rfl, rfl⟩

/-- C5 witness: the amended claim instantiated at capacity 0. -/
theorem claim5_witness :
    (LRU.new 0).limit = 0 ∧ (LRU.new 0).size = 0 ∧ (LRU.new 0).cache = [] ∧
      ((0 : Int) = 0 → ∀ (k : String) (v : JSVal), LRU.add k v (LRU.new 0) = none) :=
  claim5_construction 0 (by norm_num)

/-- C6: the claim says snapshot returns the empty sequence on an empty
store; in the code contentsArray() reads this.head.value with head null and
throws a TypeError (modelled as none) on the empty store new LRU(5). -/
theorem claim6_snapshot_empty : LRU.contentsArray (LRU.new 5) = none := rfl

/-- C7: for any store satisfying the invariant and within capacity, after
get(k) succeeds the key k is most recently used: its (fresh) entry is the
head, holds k and the returned value, and that value is first in the
snapshot. -/
theorem claim7_promotion {s : LRU} {m1 m2 : List (Nat × String × JSVal)} {a : Nat} {k : String}
    {v : JSVal} (hM : Model s (m1 ++ (a, k, v) :: m2))
    (hcap : ((m1 ++ (a, k, v) :: m2).length : Int) ≤ s.limit) :
    ∃ (s' : LRU) (vs : List JSVal), LRU.read k s = some (v, s') ∧ s'.head = some s.fresh ∧
      (∃ nd, assocGet s.fresh s'.heap = some nd ∧ nd.key = k ∧ nd.value = v) ∧
      LRU.contentsArray s' = some (v :: vs) := by
  obtain ⟨hread, hM'⟩ := read_model hM hcap
  have hfr := (remove_model hM).2.2.1
  refine ⟨LRU.addCore k v (LRU.remove k s), modelVals (m1 ++ m2), hread, ?_, ?_, ?_⟩
  · rw [addCore_head, hfr]
  · exact hM'.nodes (s.fresh, k, v) (by simp)
  · have hca := contentsArray_model hM' (by simp)
    simpa [modelVals] using hca

/-- C7 witness: promotion on a concrete one-entry store of capacity 2. -/
theorem claim7_witness :
    ∃ (s' : LRU) (vs : List JSVal),
      LRU.read "a" (singleStore "a" (JSVal.vnum 3) 2) = some (JSVal.vnum 3, s') ∧
      s'.head = some (singleStore "a" (JSVal.vnum 3) 2).fresh ∧
      (∃ nd, assocGet (singleStore "a" (JSVal.vnum 3) 2).fresh s'.heap = some nd ∧
        nd.key = "a" ∧ nd.value = JSVal.vnum 3) ∧
      LRU.contentsArray s' = some (JSVal.vnum 3 :: vs) :=
  @claim7_promotion (singleStore "a" (JSVal.vnum 3) 2) [] [] 0 "a" (JSVal.vnum 3)
    (singleStore_model "a" (JSVal.vnum 3) 2) (by decide)

/-- C8 (amended): get on a key present with a falsy stored value returns
that stored value, not the not-found marker: the truthiness check in read
tests the node object held in the index, which is always truthy when the
key is present, not the stored value. -/
theorem claim8_falsy {s : LRU} {m1 m2 : List (Nat × String × JSVal)} {a : Nat} {k : String}
    {v : JSVal} (hM : Model s (m1 ++ (a, k, v) :: m2))
    (hcap : ((m1 ++ (a, k, v) :: m2).length : Int) ≤ s.limit)
    (hfalsy : v.truthy = false) :
    (∃ s' : LRU, LRU.read k s = some (v, s')) ∧ v.truthy = false :=
  ⟨⟨LRU.addCore k v (LRU.remove k s), (read_model hM hcap).1⟩, hfalsy⟩

/-- C8 counterexample: storing the falsy value 0 under key "a" and then
reading it yields the stored 0, not the null not-found marker the claim
predicts. -/
theorem claim8_counterexample :
    Option.map Prod.fst ((putAll [("a", JSVal.vnum 0)] (LRU.new 3)).bind (LRU.read "a")) =
      some (JSVal.vnum 0) ∧ JSVal.vnum 0 ≠ JSVal.vnull :=
  ⟨rfl, by decide⟩

/-- C8 witness: the amended claim at a concrete store holding the falsy
value 0. -/
theorem claim8_witness :
    (∃ s' : LRU, LRU.read "a" (singleStore "a" (JSVal.vnum 0) 2) = some (JSVal.vnum 0, s')) ∧
      (JSVal.vnum 0).truthy = false :=
  @claim8_falsy (singleStore "a" (JSVal.vnum 0) 2) [] [] 0 "a" (JSVal.vnum 0)
    (singleStore_model "a" (JSVal.vnum 0) 2) (by decide) (by decide)

/-- C10: when key k is stored with value null, read(k) returns null — the
very marker returned for an absent key — while still promoting k's entry to
the head; so at the get interface a stored null is indistinguishable from
not-found. -/
theorem claim10_null {s : LRU} {m1 m2 : List (Nat × String × JSVal)} {a : Nat} {k : String}
    (hM : Model s (m1 ++ (a, k, JSVal.vnull) :: m2))
    (hcap : ((m1 ++ (a, k, JSVal.vnull) :: m2).length : Int) ≤ s.limit) :
    (∃ s' : LRU, LRU.read k s = some (JSVal.vnull, s') ∧ s'.head = some s.fresh ∧
      ∃ nd, assocGet s.fresh s'.heap = some nd ∧ nd.key = k ∧ nd.value = JSVal.vnull) ∧
    ∀ k', k' ∉ modelKeys (m1 ++ (a, k, JSVal.vnull) :: m2) →
      LRU.read k' s = some (JSVal.vnull, s) := by
  obtain ⟨hread, hM'⟩ := read_model hM hcap
  have hfr := (remove_model hM).2.2.1
  constructor
  · refine ⟨LRU.addCore k JSVal.vnull (LRU.remove k s), hread, ?_, ?_⟩
    · rw [addCore_head, hfr]
    · exact hM'.nodes (s.fresh, k, JSVal.vnull) (by simp)
  · intro k' hk'
    exact read_absent hM hk'

/-- C10 witness: a concrete store holding null under key "b". -/
theorem claim10_witness :
    (∃ s' : LRU, LRU.read "b" (singleStore "b" JSVal.vnull 2) = some (JSVal.vnull, s') ∧
      s'.head = some (singleStore "b" JSVal.vnull 2).fresh ∧
      ∃ nd, assocGet (singleStore "b" JSVal.vnull 2).fresh s'.heap = some nd ∧
        nd.key = "b" ∧ nd.value = JSVal.vnull) ∧
    ∀ k', k' ∉ modelKeys ([] ++ (0, "b", JSVal.vnull) :: []) →
      LRU.read k' (singleStore "b" JSVal.vnull 2) = some (JSVal.vnull, singleStore "b" JSVal.vnull 2) :=
  @claim10_null (singleStore "b" JSVal.vnull 2) [] [] 0 "b"
    (singleStore_model "b" JSVal.vnull 2) (by decide)

/-- C2 (amended): put(k, v) on an already-present key is not equivalent to
remove(k) followed by a fresh insert: it allocates a new head entry,
repoints the index to it and increments count, leaving the stale entry in
the chain — the chain walk now lists k twice — whereas remove-then-insert
leaves count unchanged.  Stated below capacity, where no eviction
interferes. -/
theorem claim2_overwrite {s : LRU} {m1 m2 : List (Nat × String × JSVal)} {a : Nat} {k : String}
    {v0 : JSVal} (v : JSVal) (hM : Model s (m1 ++ (a, k, v0) :: m2))
    (hlt : s.size < s.limit) :
    LRU.add k v s = some (LRU.addCore k v s) ∧
    (LRU.addCore k v s).size = s.size + 1 ∧
    assocGet k (LRU.addCore k v s).cache = some s.fresh ∧
    chainKeys (LRU.addCore k v s) = k :: chainKeys s ∧
    k ∈ chainKeys s ∧
    (∃ s2 : LRU, LRU.add k v (LRU.remove k s) = some s2 ∧ s2.size = s.size) := by
  have hne : s.limit ≠ s.size := by omega
  refine ⟨add_noFull hne, addCore_size k v s, ?_, ?_, ?_, ?_⟩
  · rw [addCore_cache]
    exact assocGet_set_self _ _ _
  · obtain ⟨hchain, hnodes⟩ := addCore_chain_nodes k v hM
    have hlen : (m1 ++ (a, k, v0) :: m2).length ≤ s.heap.length := model_length_le hM
    have hfreshHeap : assocGet s.fresh s.heap = none := by
      apply assocGet_eq_none
      intro hmem
      exact absurd (hM.freshBound _ hmem) (lt_irrefl _)
    have hfst : (LRU.addCore k v s).heap.map Prod.fst = s.heap.map Prod.fst ++ [s.fresh] := by
      cases hh : s.head <;>
        simp [LRU.addCore, hh, writePrev_fst, assocSet_fst_of_none hfreshHeap]
    have hlen' : (LRU.addCore k v s).heap.length = s.heap.length + 1 := by
      have hq := congrArg List.length hfst
      simpa using hq
    have hchain' : Seg (LRU.addCore k v s).heap none (some s.fresh)
        (modelAddrs ((s.fresh, k, v) :: (m1 ++ (a, k, v0) :: m2)))
        (LRU.addCore k v s).tail none := by
      simpa only [modelAddrs, List.map_cons] using hchain
    have hcK := chainKeysFrom_spec ((s.fresh, k, v) :: (m1 ++ (a, k, v0) :: m2))
      ((LRU.addCore k v s).heap.length + 1) hchain' hnodes
      (by simp only [List.length_cons]; omega)
    rw [chainKeys_model hM]
    unfold chainKeys
    rw [show (LRU.addCore k v s).head = some s.fresh from addCore_head k v s, hcK]
    simp [modelKeys]
  · rw [chainKeys_model hM]
    exact List.mem_map.mpr ⟨(a, k, v0), by simp, rfl⟩
  · obtain ⟨hMr, hliml, hfr, hsz⟩ := remove_model hM
    have hne2 : (LRU.remove k s).limit ≠ (LRU.remove k s).size := by
      rw [hliml, hsz]
      omega
    refine ⟨LRU.addCore k v (LRU.remove k s), add_noFull hne2, ?_⟩
    rw [addCore_size, hsz]
    ring

/-- C2 counterexample: on a capacity-3 store holding key "1", put("1","b")
yields count 2 and snapshot [b, a] (the stale entry is still on the chain),
while remove("1") followed by the insert yields count 1 and snapshot [b]:
the two are observably different, refuting the claimed equivalence. -/
theorem claim2_counterexample :
    ((LRU.add "1" (JSVal.vstr "a") (LRU.new 3)).bind (LRU.add "1" (JSVal.vstr "b"))).map
        (fun s => (s.size, LRU.contentsArray s)) =
      some (2, some [JSVal.vstr "b", JSVal.vstr "a"]) ∧
    (((LRU.add "1" (JSVal.vstr "a") (LRU.new 3)).map (LRU.remove "1")).bind
        (LRU.add "1" (JSVal.vstr "b"))).map (fun s => (s.size, LRU.contentsArray s)) =
      some (1, some [JSVal.vstr "b"]) :=
  ⟨rfl, rfl⟩

/-- C2 witness: the amended claim applied to a concrete one-entry store;
the duplicate put increments count. -/
theorem claim2_witness :
    (LRU.addCore "a" (JSVal.vnum 2) (singleStore "a" (JSVal.vnum 1) 2)).size =
      (singleStore "a" (JSVal.vnum 1) 2).size + 1 :=
  (@claim2_overwrite (singleStore "a" (JSVal.vnum 1) 2) [] [] 0 "a" (JSVal.vnum 1)
    (JSVal.vnum 2) (singleStore_model "a" (JSVal.vnum 1) 2) (by decide)).2.1

/-- C9 (amended): the memoizing wrapper returns a cached result without
invoking the wrapped function only when the cached result is truthy; on a
genuine miss it invokes the function once, stores the result and returns
it.  (When the cached result is falsy the !itemExists test misfires and the
function is invoked again, so "two successive identical calls invoke f only
once" holds only for truthy results.) -/
theorem claim9_memo {s : LRU} {m : List (Nat × String × JSVal)} (f : List JSVal → JSVal)
    (args : List JSVal) (hM : Model s m) (hcap : (m.length : Int) ≤ s.limit) :
    (∀ m1 a v m2, m = m1 ++ (a, jsonKey args, v) :: m2 → v.truthy = true →
      ∃ s' : LRU, memoCall f args s = some (v, s', false)) ∧
    (jsonKey args ∉ modelKeys m → 1 ≤ s.limit →
      ∃ s' : LRU, memoCall f args s = some (f args, s', true)) := by
  constructor
  · intro m1 a v m2 hm htr
    subst hm
    obtain ⟨hread, _⟩ := read_model hM hcap
    refine ⟨LRU.addCore (jsonKey args) v (LRU.remove (jsonKey args) s), ?_⟩
    simp [memoCall, hread, htr]
  · intro habs hlim
    have hread := read_absent hM habs
    by_cases heq : s.limit = s.size
    · have hs := hM.sizeEq
      have hlen : 1 ≤ m.length := by omega
      rcases List.eq_nil_or_concat m with rfl | ⟨m', e0, hm⟩
      · simp at hlen
      · rw [List.concat_eq_append] at hm
        subst hm
        rcases e0 with ⟨a0, k0, v0⟩
        obtain ⟨haddEq, _⟩ := @add_model_full s m' a0 k0 v0 (jsonKey args) (f args) hM habs heq
        refine ⟨LRU.addCore (jsonKey args) (f args) (LRU.remove k0 s), ?_⟩
        simp [memoCall, hread, JSVal.truthy, haddEq]
    · obtain ⟨haddEq, _⟩ := @add_model_noFull s m (jsonKey args) (f args) hM habs heq
      refine ⟨LRU.addCore (jsonKey args) (f args) s, ?_⟩
      simp [memoCall, hread, JSVal.truthy, haddEq]

/-- C9 counterexample: memoizing a function whose result is the falsy value
0 with the wrapper's own fresh store, two successive identical calls both
invoke the function (the second call's invoked flag is true), contradicting
the claim that a present key is returned without invoking f. -/
theorem claim9_counterexample :
    ((memoCall (fun _ => JSVal.vnum 0) [JSVal.vnum 1] memoInit).bind
      (fun r => (memoCall (fun _ => JSVal.vnum 0) [JSVal.vnum 1] r.2.1).map
        (fun r2 => r2.2.2))) = some true :=
  rfl

/-- C9 witness: a hit on a truthy cached result is returned without
invoking the function. -/
theorem claim9_witness :
    ∃ s' : LRU, memoCall (fun _ => JSVal.vnum 5) [JSVal.vnum 1]
      (singleStore "[1]" (JSVal.vnum 7) 3) = some (JSVal.vnum 7, s', false) :=
  (claim9_memo (fun _ => JSVal.vnum 5) [JSVal.vnum 1]
    (singleStore_model "[1]" (JSVal.vnum 7) 3) (by decide)).1 [] 0 (JSVal.vnum 7) []
    (by decide) (by decide)

/-- C1 (amended): over states reachable by puts of currently-absent keys
(together with gets and removes) from a store of positive capacity: count
never exceeds capacity; and whenever count equals capacity, a further put
of an absent key removes exactly one entry — the current tail — before
inserting: count is unchanged, the tail's key leaves the index, the new key
enters it, and every other indexed key survives. -/
theorem claim1_capacity {s : LRU} (h : Reach s) :
    s.size ≤ s.limit ∧
      ∀ (k : String) (v : JSVal), s.size = s.limit → assocGet k s.cache = none →
        ∃ (s' : LRU) (a0 : Nat) (nd0 : Node), LRU.add k v s = some s' ∧
          s.tail = some a0 ∧ assocGet a0 s.heap = some nd0 ∧ s'.size = s.size ∧
          assocGet nd0.key s'.cache = none ∧ assocGet k s'.cache = some s.fresh ∧
          ∀ k', k' ≠ nd0.key → (∃ b, assocGet k' s.cache = some b) →
            ∃ b', assocGet k' s'.cache = some b' := by
  obtain ⟨m, hM, hcap, hlim⟩ := reach_model h
  have hsz := hM.sizeEq
  constructor
  · rw [hsz]
    exact hcap
  · intro k v heq hab
    have hk : k ∉ modelKeys m := by
      intro hq
      obtain ⟨m1, a, v', m2, rfl⟩ := model_mem_split hq
      have hco := hM.cacheOf (a, k, v') (by simp)
      have hcontra : some a = none := hco.symm.trans hab
      simp at hcontra
    have hlen : 1 ≤ m.length := by omega
    rcases List.eq_nil_or_concat m with rfl | ⟨m', e0, hm⟩
    · simp at hlen
    · rw [List.concat_eq_append] at hm
      subst hm
      rcases e0 with ⟨a0, k0, v0⟩
      have hC' : Seg s.heap none s.head (modelAddrs m' ++ [a0]) s.tail none := by
        simpa only [modelAddrs, List.map_append, List.map_cons, List.map_nil] using hM.chain
      obtain ⟨pm, cm, h1, h2⟩ := seg_split hC'
      obtain ⟨hcm, nd, hnd, hndp, hrest⟩ := seg_cons_inv h2
      obtain ⟨htail, _⟩ := seg_nil_inv hrest
      obtain ⟨nd', hnd', hk', hv'⟩ := hM.nodes (a0, k0, v0) (by simp)
      have hndeq : nd' = nd := Option.some.inj (hnd'.symm.trans hnd)
      subst hndeq
      have hk0 : nd'.key = k0 := hk'
      obtain ⟨haddEq, hM'⟩ := @add_model_full s m' a0 k0 v0 k v hM hk heq.symm
      refine ⟨_, a0, nd', haddEq, htail, hnd', ?_, ?_, ?_, ?_⟩
      · have hsz' := hM'.sizeEq
        rw [hsz', hsz]
        simp [List.length_append]
      · rw [hk0]
        apply model_cache_none hM'
        intro hq
        simp only [modelKeys, List.map_cons, List.mem_cons] at hq
        rcases hq with hq | hq
        · exact hk (List.mem_map.mpr ⟨(a0, k0, v0), by simp, by simp [hq]⟩)
        · have hKn : (modelKeys m' ++ [k0]).Nodup := by
            simpa only [modelKeys, List.map_append, List.map_cons, List.map_nil]
              using hM.keysNodup
          obtain ⟨_, _, hd3⟩ := List.nodup_append.mp hKn
          exact hd3 (by simpa [modelKeys] using hq) (List.mem_singleton.mpr rfl)
      · exact hM'.cacheOf (s.fresh, k, v) (by simp)
      · intro k' hne hex
        obtain ⟨b, hb⟩ := hex
        obtain ⟨vb, hvb⟩ := hM.cacheOnly k' b hb
        have hmem' : (b, k', vb) ∈ m' := by
          rcases List.mem_append.mp hvb with hm1 | hm2
          · exact hm1
          · exfalso
            have heb : ((b, k', vb) : Nat × String × JSVal) = (a0, k0, v0) :=
              List.mem_singleton.mp hm2
            apply hne
            rw [hk0]
            exact congrArg (fun e => e.2.1) heb
        exact ⟨b, hM'.cacheOf (b, k', vb) (List.mem_cons_of_mem _ hmem')⟩

/-- C1 counterexample: the claim quantifies over every sequence of puts; on
a capacity-2 store the put sequence 1, 1, 2, 3 (which puts key 1 while it
is already present) drives count to 3, exceeding the capacity 2. -/
theorem claim1_counterexample :
    (putAll [("1", JSVal.vstr "a"), ("1", JSVal.vstr "b"), ("2", JSVal.vstr "c"),
        ("3", JSVal.vstr "d")] (LRU.new 2)).map (fun s => (s.size, s.limit)) =
      some (3, 2) ∧ ¬ ((3 : Int) ≤ 2) :=
  ⟨rfl, by decide⟩

/-- C1 witness: the capacity bound at the freshly constructed store of
capacity 1. -/
theorem claim1_witness : (LRU.new 1).size ≤ (LRU.new 1).limit :=
  (claim1_capacity (Reach.init 1 (by norm_num))).1

/-- C3 (amended): in every state reachable by puts of absent keys, gets and
removes from a fresh positive-capacity store, a key is in the index iff the
walk of the chain from head to tail passes an entry holding it, no key
occurs twice on that walk, and the number of index entries equals count. -/
theorem claim3_invariant {s : LRU} (h : Reach s) :
    (∀ k, (∃ a, assocGet k s.cache = some a) ↔ k ∈ chainKeys s) ∧
      (chainKeys s).Nodup ∧ ((s.cache.length : Int) = s.size) := by
  obtain ⟨m, hM, _, _⟩ := reach_model h
  have hck := chainKeys_model hM
  refine ⟨?_, ?_, ?_⟩
  · intro k
    rw [hck]
    constructor
    · rintro ⟨a, ha⟩
      obtain ⟨v, hv⟩ := hM.cacheOnly k a ha
      exact List.mem_map.mpr ⟨_, hv, rfl⟩
    · intro hkm
      obtain ⟨m1, a, v, m2, rfl⟩ := model_mem_split hkm
      exact ⟨a, hM.cacheOf (a, k, v) (by simp)⟩
  · rw [hck]
    exact hM.keysNodup
  · have hsub1 : s.cache.map Prod.fst ⊆ modelKeys m := by
      intro x hx
      obtain ⟨p, hp, hpx⟩ := List.mem_map.mp hx
      have hget : assocGet p.1 s.cache = some p.2 :=
        assocGet_of_mem_nodup hM.cacheKeysNodup hp
      obtain ⟨v, hv⟩ := hM.cacheOnly p.1 p.2 hget
      exact hpx ▸ List.mem_map.mpr ⟨_, hv, rfl⟩
    have hsub2 : modelKeys m ⊆ s.cache.map Prod.fst := by
      intro x hx
      obtain ⟨m1, a, v, m2, hm⟩ := model_mem_split hx
      subst hm
      have hget := hM.cacheOf (a, x, v) (by simp)
      exact List.mem_map.mpr ⟨(x, a), assocGet_mem hget, rfl⟩
    have hle1 := (hM.cacheKeysNodup.subperm hsub1).length_le
    have hle2 := (hM.keysNodup.subperm hsub2).length_le
    have e1 : (s.cache.map Prod.fst).length = s.cache.length := List.length_map _ _
    have e2 : (modelKeys m).length = m.length := List.length_map _ _
    have hlen : s.cache.length = m.length := by omega
    rw [hlen, hM.sizeEq]

/-- C3 counterexample: the claimed invariant is stated for all put
sequences; putting key "1" twice on a fresh capacity-3 store yields a chain
walk listing key "1" twice and an index of 1 entry against a count of 2. -/
theorem claim3_counterexample :
    (putAll [("1", JSVal.vstr "a"), ("1", JSVal.vstr "b")] (LRU.new 3)).map
        (fun s => (chainKeys s, s.cache.length, s.size)) =
      some (["1", "1"], 1, 2) ∧
    ¬ (["1", "1"] : List String).Nodup ∧ ¬ ((1 : Int) = 2) :=
  ⟨rfl, by decide, by decide⟩

/-- C3 witness: the invariant at the freshly constructed store of
capacity 1. -/
theorem claim3_witness :
    (chainKeys (LRU.new 1)).Nodup ∧ (((LRU.new 1).cache.length : Int) = (LRU.new 1).size) :=
  (claim3_invariant (Reach.init 1 (by norm_num))).2

/-- C4: for every capacity c > 0, putting c+1 pairwise-distinct keys into a
fresh store with no intervening reads evicts exactly the first-inserted key
— it leaves the index and get on it returns the not-found marker — while
the count is c and each of the other c keys is retrievable with its stored
value. -/
theorem claim4_eviction (c : Nat) (kvs : List (String × JSVal)) (hc : 0 < c)
    (hlen : kvs.length = c + 1) (hnd : (kvs.map Prod.fst).Nodup) :
    ∃ s' : LRU, putAll kvs (LRU.new (c : Int)) = some s' ∧ s'.size = (c : Int) ∧
      (∀ kv0, kvs.head? = some kv0 → assocGet kv0.1 s'.cache = none ∧
        LRU.read kv0.1 s' = some (JSVal.vnull, s')) ∧
      ∀ kv ∈ kvs.tail, ∃ s'' : LRU, LRU.read kv.1 s' = some (kv.2, s'') := by
  rcases List.eq_nil_or_concat kvs with rfl | ⟨front, lkv, hkv⟩
  · simp at hlen
  · rw [List.concat_eq_append] at hkv
    subst hkv
    obtain ⟨kl, vl⟩ := lkv
    have hflen : front.length = c := by
      simp only [List.length_append, List.length_cons, List.length_nil] at hlen
      omega
    have hndA : ((front.map Prod.fst) ++ [kl]).Nodup := by
      simpa [List.map_append] using hnd
    obtain ⟨hndF, _, hdisjF⟩ := List.nodup_append.mp hndA
    have hlastF : kl ∉ front.map Prod.fst := by
      intro hq
      exact hdisjF hq (List.mem_singleton.mpr rfl)
    obtain ⟨sc, ents, hput1, hMc0, hmap, hlimc⟩ := putAll_model front (LRU.new (c : Int)) []
      (model_new _) hndF (by simp [modelKeys]) (by simp [hflen, LRU.new])
    have hMc : Model sc ents.reverse := by simpa using hMc0
    have hentlen : ents.length = c := by
      have hq := congrArg List.length hmap
      simpa [hflen] using hq
    rcases ents with _ | ⟨e0, erest⟩
    · rw [show ([] : List (Nat × String × JSVal)).length = 0 from rfl] at hentlen
      omega
    rcases e0 with ⟨a0, k0, v0⟩
    have herlen : erest.length + 1 = c := by simpa using hentlen
    have hmapkeys : modelKeys ((a0, k0, v0) :: erest) = front.map Prod.fst := by
      have hq := congrArg (List.map Prod.fst) hmap
      simpa [modelKeys, List.map_map, Function.comp] using hq
    have hfront : front = (k0, v0) :: erest.map (fun e => (e.2.1, e.2.2)) := by
      rw [← hmap]
      simp
    have heq : sc.limit = sc.size := by
      have hl0 : (LRU.new (c : Int)).limit = (c : Int) := rfl
      have hrevlen : ((a0, k0, v0) :: erest).reverse.length = c := by simpa using hentlen
      rw [hlimc, hl0, hMc.sizeEq, hrevlen]
    have hrev : ((a0, k0, v0) :: erest).reverse = erest.reverse ++ [(a0, k0, v0)] := by simp
    rw [hrev] at hMc
    have hlastKeys : kl ∉ modelKeys (erest.reverse ++ [(a0, k0, v0)]) := by
      intro hq
      apply hlastF
      rw [← hmapkeys]
      simp only [modelKeys, List.map_append, List.map_reverse, List.map_cons, List.map_nil,
        List.mem_append, List.mem_reverse, List.mem_cons] at hq ⊢
      rcases hq with hq | hq
      · exact Or.inr hq
      · rcases hq with hq | hq
        · exact Or.inl hq
        · exact absurd hq (by simp)
    obtain ⟨haddEq, hM'⟩ := @add_model_full sc erest.reverse a0 k0 v0 kl vl hMc hlastKeys heq
    have hputAll : putAll (front ++ [(kl, vl)]) (LRU.new (c : Int)) =
        some (LRU.addCore kl vl (LRU.remove k0 sc)) := by
      rw [putAll_append, hput1]
      simp [putAll, haddEq]
    have hlim' : (LRU.addCore kl vl (LRU.remove k0 sc)).limit = (c : Int) := by
      rw [addCore_limit, (remove_model hMc).2.1, hlimc]
      rfl
    have hcap' : ((((sc.fresh, kl, vl) :: erest.reverse)).length : Int) ≤
        (LRU.addCore kl vl (LRU.remove k0 sc)).limit := by
      rw [hlim']
      simp only [List.length_cons, List.length_reverse]
      exact_mod_cast herlen.le
    refine ⟨LRU.addCore kl vl (LRU.remove k0 sc), hputAll, ?_, ?_, ?_⟩
    · rw [hM'.sizeEq]
      simp only [List.length_cons, List.length_reverse]
      exact_mod_cast herlen
    · intro kv0 hkv0
      have hhead : (front ++ [((kl : String), (vl : JSVal))]).head? = some (k0, v0) := by
        rw [hfront]
        rfl
      rw [hhead] at hkv0
      have hkv0' : kv0 = (k0, v0) := (Option.some.inj hkv0).symm
      subst hkv0'
      have hk0abs : k0 ∉ modelKeys ((sc.fresh, kl, vl) :: erest.reverse) := by
        intro hq
        simp only [modelKeys, List.map_cons, List.mem_cons] at hq
        rcases hq with hq | hq
        · apply hlastF
          rw [hfront]
          simp only [List.map_cons, List.mem_cons]
          exact Or.inl hq.symm
        · have hkN : (modelKeys ((a0, k0, v0) :: erest)).Nodup := by
            rw [hmapkeys]
            exact hndF
          have hknotin : k0 ∉ modelKeys erest := by
            have hq2 : (k0 :: modelKeys erest).Nodup := by
              simpa only [modelKeys, List.map_cons] using hkN
            exact (List.nodup_cons.mp hq2).1
          apply hknotin
          simpa only [modelKeys, List.map_reverse, List.mem_reverse] using hq
      exact ⟨model_cache_none hM' hk0abs, read_absent hM' hk0abs⟩
    · intro kv hkv
      have htail : (front ++ [((kl : String), (vl : JSVal))]).tail =
          erest.map (fun e => (e.2.1, e.2.2)) ++ [(kl, vl)] := by
        rw [hfront]
        rfl
      rw [htail] at hkv
      rcases List.mem_append.mp hkv with hm | hm
      · obtain ⟨e, he, hfe⟩ := List.mem_map.mp hm
        have heM : e ∈ (sc.fresh, kl, vl) :: erest.reverse :=
          List.mem_cons_of_mem _ (List.mem_reverse.mpr he)
        obtain ⟨mm1, mm2, hsplit⟩ := List.append_of_mem heM
        rcases e with ⟨ae, ke, ve⟩
        have hMs : Model (LRU.addCore kl vl (LRU.remove k0 sc)) (mm1 ++ (ae, ke, ve) :: mm2) := by
          rw [← hsplit]
          exact hM'
        rw [hsplit] at hcap'
        obtain ⟨hrd, _⟩ := read_model hMs hcap'
        refine ⟨LRU.addCore ke ve (LRU.remove ke (LRU.addCore kl vl (LRU.remove k0 sc))), ?_⟩
        rw [← hfe]
        exact hrd
      · have hkvl : kv = (kl, vl) := List.mem_singleton.mp hm
        subst hkvl
        have hMs : Model (LRU.addCore kl vl (LRU.remove k0 sc))
            ([] ++ (sc.fresh, kl, vl) :: erest.reverse) := hM'
        obtain ⟨hrd, _⟩ := read_model hMs hcap'
        exact ⟨LRU.addCore kl vl (LRU.remove kl (LRU.addCore kl vl (LRU.remove k0 sc))), hrd⟩

/-- C4 witness: capacity 1, keys "a" then "b": "a" is evicted, "b" remains
retrievable. -/
theorem claim4_witness :
    ∃ s' : LRU, putAll [("a", JSVal.vnum 1), ("b", JSVal.vnum 2)]
        (LRU.new ((1 : Nat) : Int)) = some s' ∧ s'.size = ((1 : Nat) : Int) ∧
      (∀ kv0, ([("a", JSVal.vnum 1), ("b", JSVal.vnum 2)] :
          List (String × JSVal)).head? = some kv0 →
        assocGet kv0.1 s'.cache = none ∧ LRU.read kv0.1 s' = some (JSVal.vnull, s')) ∧
      ∀ kv ∈ ([("a", JSVal.vnum 1), ("b", JSVal.vnum 2)] : List (String × JSVal)).tail,
        ∃ s'' : LRU, LRU.read kv.1 s' = some (kv.2, s'') :=
  claim4_eviction 1 [("a", JSVal.vnum 1), ("b", JSVal.vnum 2)] (by norm_num) rfl (by decide)
